import Mathlib

/-!
# Verification of the uscf tunnel client against its specification

Shallow embedding of the parts of the `uscf` MASQUE/Warp tunnel client that
the specification's claims are about, together with theorems settling those
claims.

Conventions used throughout:

* Go `time.Duration` values (`int64` nanoseconds) are modelled as `Int`;
  Go byte-slice capacities and `int` fields are modelled as `Int` or `Nat`
  as noted at each definition.
* Go `float64` arithmetic inside `ExponentialBackoff.NextDelay` is modelled
  as exact rational (`ℚ`) arithmetic; the conversion `time.Duration(x)` from
  `float64`, which discards the fractional part (truncation toward zero),
  is modelled by `goTrunc`.  All concrete inputs used in counterexamples
  are small integers for which `float64` arithmetic is exact, so the model
  and the Go code agree on them.
* Nondeterministic inputs (I/O results, the random jitter source, DNS
  lookup results) are passed in explicitly as oracle arguments.
* Functions that Go runs for their side effects additionally return the
  list of externally observable events (closes, deadline updates, …).
* Go `panic` is modelled as `Except.error`.
-/

namespace Uscf

/-! ## Packet buffer pool (`api/tunnel.go`: `packetBuffCap`, `NetBuffer`) -/

/-- The constant `packetBuffCap = 2048` from `api/tunnel.go`. -/
def packetBuffCap : Int := 2048

/-- Model of `NetBuffer` from `api/tunnel.go`.  The underlying `sync.Pool` is
modelled by the list of capacities of the byte slices currently stored in it
(the capacity is the only attribute of a stored buffer the claims refer to).
`New` of the `sync.Pool` allocates `make([]byte, capacity)`, i.e. a slice of
capacity `capacity`; this shows up in `GetBuf` below when the pool is empty. -/
structure NetBuffer where
  capacity : Int
  pool : List Int
deriving DecidableEq, Repr

/-- `NewNetBuffer` from `api/tunnel.go`: panics (modelled as `Except.error`)
unless `capacity > 0`, otherwise returns a pool with the given capacity. -/
def NewNetBuffer (capacity : Int) : Except String NetBuffer :=
  if capacity ≤ 0 then .error "capacity must be greater than 0"
  else .ok { capacity := capacity, pool := [] }

/-- `NetBuffer.GetBuf`: take a byte slice from the pool; on a pool miss the
`sync.Pool`'s `New` allocates a fresh slice of capacity `n.capacity`.
Returns the capacity of the obtained buffer and the updated pool. -/
def NetBuffer.GetBuf (n : NetBuffer) : Int × NetBuffer :=
  match n.pool with
  | [] => (n.capacity, n)
  | c :: rest => (c, { n with pool := rest })

/-- `NetBuffer.PutBuf`: place a byte slice back into the pool, silently
dropping it when its capacity does not match the pool's capacity. -/
def NetBuffer.PutBuf (n : NetBuffer) (bufCap : Int) : NetBuffer :=
  if bufCap ≠ n.capacity then n
  else { n with pool := bufCap :: n.pool }

/-- Pool well-formedness: positive capacity (guaranteed by `NewNetBuffer`) and
every stored slice has exactly the pool's capacity (guaranteed by `PutBuf`'s
capacity check and `New`'s allocation size). -/
def NetBuffer.WF (n : NetBuffer) : Prop :=
  0 < n.capacity ∧ ∀ c ∈ n.pool, c = n.capacity

instance (n : NetBuffer) : Decidable n.WF := by
  unfold NetBuffer.WF; infer_instance

/-! ## Forwarding loops (`api/tunnel.go`: `handleForwarding`)

`handleForwarding` runs two goroutines; each loop iteration acquires one
buffer from `packetBufferPool` and handles it along one of finitely many
control-flow paths determined by the I/O results.  The per-buffer claims
(C3, C4) are settled on a model of a single loop-body iteration,
parametrised by the acquired buffer's capacity and by the iteration's I/O
outcome. -/

/-- Outcome of the I/O operations in one iteration of the device→IP
(egress) loop body of `handleForwarding`. -/
inductive EgressOutcome
  /-- `device.ReadPacket` failed. -/
  | readErr
  /-- `ipConn.WritePacket` failed. -/
  | ipWriteErr
  /-- the packet was submitted to `ipConn`; `icmpLen` is the length of the
  returned ICMP payload and `icmpWriteOk` the result of writing it back. -/
  | delivered (icmpLen : Nat) (icmpWriteOk : Bool)
deriving DecidableEq, Repr

/-- Outcome of the I/O operations in one iteration of the IP→device
(ingress) loop body of `handleForwarding`. -/
inductive IngressOutcome
  /-- `ipConn.ReadPacket` failed. -/
  | readErr
  /-- `device.WritePacket` failed. -/
  | devWriteErr
  /-- the packet was submitted to the device. -/
  | ok
deriving DecidableEq, Repr

/-- Number of `packetBufferPool.PutBuf` invocations on the acquired buffer
during one egress loop-body iteration of `handleForwarding`, by direct
transcription of the three `PutBuf` call sites of that loop. -/
def egressPutBufCalls (bufCap : Int) (o : EgressOutcome) : Nat :=
  match o with
  | .readErr => 1
  | .ipWriteErr => 1
  | .delivered _ _ => if bufCap < 2 * packetBuffCap then 1 else 0

/-- Number of `packetBufferPool.PutBuf` invocations on the acquired buffer
during one ingress loop-body iteration of `handleForwarding`. -/
def ingressPutBufCalls (bufCap : Int) (o : IngressOutcome) : Nat :=
  match o with
  | .readErr => 1
  | .devWriteErr => 1
  | .ok => if bufCap < 2 * packetBuffCap then 1 else 0

/-- The pool after one egress loop-body iteration of `handleForwarding`
operating on a buffer of capacity `bufCap`: each `PutBuf` call site of the
loop applied on its control-flow path. -/
def egressPoolAfter (n : NetBuffer) (bufCap : Int) (o : EgressOutcome) : NetBuffer :=
  match o with
  | .readErr => n.PutBuf bufCap
  | .ipWriteErr => n.PutBuf bufCap
  | .delivered _ _ => if bufCap < 2 * packetBuffCap then n.PutBuf bufCap else n

/-- The pool after one ingress loop-body iteration of `handleForwarding`
operating on a buffer of capacity `bufCap`. -/
def ingressPoolAfter (n : NetBuffer) (bufCap : Int) (o : IngressOutcome) : NetBuffer :=
  match o with
  | .readErr => n.PutBuf bufCap
  | .devWriteErr => n.PutBuf bufCap
  | .ok => if bufCap < 2 * packetBuffCap then n.PutBuf bufCap else n

/-! ## Reconnection backoff (`api/tunnel.go`: `ExponentialBackoff`) -/

/-- Go's conversion `time.Duration(x)` of a `float64` truncates toward zero. -/
def goTrunc (q : ℚ) : Int := if q < 0 then ⌈q⌉ else ⌊q⌋

/-- `ExponentialBackoff` from `api/tunnel.go`.  Durations are `Int`
nanoseconds, `Factor` is the `float64` field modelled as a rational. -/
structure ExponentialBackoff where
  InitialDelay : Int
  MaxDelay : Int
  Factor : ℚ
  attempt : Int
deriving DecidableEq, Repr

/-- The delay-growing loop of `NextDelay`:
`for i := 0; i < attempt && float64(delay) < maxDelayInFloat; i++
   { delay = time.Duration(float64(delay) * b.Factor) }`,
with the iteration count as fuel. -/
def backoffLoop (factor maxDelayInFloat : ℚ) : Nat → Int → Int
  | 0, delay => delay
  | n + 1, delay =>
      if (delay : ℚ) < maxDelayInFloat then
        backoffLoop factor maxDelayInFloat n (goTrunc ((delay : ℚ) * factor))
      else delay

/-- The value of `delay` in `ExponentialBackoff.NextDelay` right before the
jitter is applied: the loop result clamped to `MaxDelay`. -/
def ExponentialBackoff.preJitterDelay (b : ExponentialBackoff) (attempt : Int) : Int :=
  let attempt := if attempt ≤ 0 then b.attempt + 1 else attempt
  let maxDelayInFloat : ℚ := (b.MaxDelay : ℚ) / b.Factor
  let delay := backoffLoop b.Factor maxDelayInFloat attempt.toNat b.InitialDelay
  if b.MaxDelay < delay then b.MaxDelay else delay

/-- `ExponentialBackoff.NextDelay` from `api/tunnel.go` (the second, current
version of the file).  `r` models the value drawn from `rand.Float64()`
(so `0 ≤ r < 1`).  Returns the delay and the updated receiver (the method
stores the effective attempt in `b.attempt`). -/
def ExponentialBackoff.NextDelay (b : ExponentialBackoff) (attempt : Int) (r : ℚ) :
    Int × ExponentialBackoff :=
  let attempt := if attempt ≤ 0 then b.attempt + 1 else attempt
  let delay := b.preJitterDelay attempt
  let jitter := goTrunc ((delay : ℚ) * (1 / 10))
  let delay := delay - jitter + goTrunc (((jitter * 2 : Int) : ℚ) * r)
  (delay, { b with attempt := attempt })

/-- `ExponentialBackoff.Reset`. -/
def ExponentialBackoff.Reset (b : ExponentialBackoff) : ExponentialBackoff :=
  { b with attempt := 0 }

/-! ## Connection lifecycle (`api/tunnel.go`: `handleConnection`, `MaintainTunnel`) -/

/-- The two `TunnelStats` counters the lifecycle claims observe. -/
structure TunnelStats where
  Errors : Nat
  HandShake : Nat
deriving DecidableEq, Repr

/-- Externally observable events of one `handleConnection` call. -/
inductive TEvent
  /-- `handleForwarding` was started. -/
  | forwardingRun
  /-- `ipConn.Close()` (deferred). -/
  | closeIPConn
  /-- `udpConn.Close()` (deferred). -/
  | closeUDPConn
  /-- `tr.Close()` (deferred). -/
  | closeTransport
deriving DecidableEq, Repr

/-- Whether an event is one of the three deferred teardown closes. -/
def TEvent.isClose : TEvent → Bool
  | .forwardingRun => false
  | _ => true

/-- The teardown order claim C5 states — "the IP-packet connection, then the
QUIC transport, then the UDP socket, in that order".  Written from the
spec's words, to be compared with the order the code's deferred closes
actually produce. -/
def specTeardownOrder : List TEvent := [.closeIPConn, .closeTransport, .closeUDPConn]

/-- Oracle describing how one connection attempt plays out:
`ConnectTunnel`'s result and, when forwarding runs, `handleForwarding`'s
returned error. -/
inductive AttemptOutcome
  /-- `ConnectTunnel` returned an error. -/
  | dialErr (e : String)
  /-- `ConnectTunnel` succeeded with HTTP status `statusCode` / status text
  `status`; when the status is 200, `fwdErr` is what `handleForwarding`
  returns. -/
  | dialOK (statusCode : Nat) (status : String) (fwdErr : Option String)
deriving DecidableEq, Repr

/-- Result of one `handleConnection` call. -/
structure ConnResult where
  attempt : Int
  err : Option String
  stats : TunnelStats
  events : List TEvent
deriving DecidableEq, Repr

/-- `handleConnection` from `api/tunnel.go`: on a dial error, return
`(reconnectAttempt+1, err)` before the teardown defer is registered; on a
non-200 status, record an error and return `(reconnectAttempt+1, error with
the status text)`; on status 200, record the handshake, run forwarding, and
return `(0, forwarding error)`, recording an error if forwarding failed.
The deferred closes run, in source order `ipConn`, `udpConn`, `tr`, on every
return after the successful dial. -/
def handleConnection (reconnectAttempt : Int) (o : AttemptOutcome) (stats : TunnelStats) :
    ConnResult :=
  match o with
  | .dialErr e =>
      { attempt := reconnectAttempt + 1, err := some e, stats := stats, events := [] }
  | .dialOK statusCode status fwdErr =>
      if statusCode ≠ 200 then
        { attempt := reconnectAttempt + 1,
          err := some ("tunnel connection failed: " ++ status),
          stats := { stats with Errors := stats.Errors + 1 },
          events := [.closeIPConn, .closeUDPConn, .closeTransport] }
      else
        { attempt := 0,
          err := fwdErr,
          stats := { Errors := stats.Errors + (if fwdErr.isSome then 1 else 0),
                     HandShake := stats.HandShake + 1 },
          events := [.forwardingRun, .closeIPConn, .closeUDPConn, .closeTransport] }

/-- State of the `MaintainTunnel` loop.  `reconnectAttempt` is the variable
declared before the loop.  Inside the loop body the statement
`reconnectAttempt, err := handleConnection(...)` is a Go short variable
declaration in the body's inner scope: it declares two NEW variables, so the
outer `reconnectAttempt` modelled here is never written again.  The inner
(shadowing) `reconnectAttempt` only feeds that same iteration's
`NextDelay` call. -/
structure MaintainState where
  reconnectAttempt : Int
  stats : TunnelStats
  backoff : ExponentialBackoff
deriving DecidableEq, Repr

/-- Observables of one `MaintainTunnel` loop iteration. -/
structure StepRecord where
  /-- the value passed to `handleConnection` as `reconnectAttempt`. -/
  attemptPassed : Int
  /-- the argument passed to `ReconnectStrategy.NextDelay` (the inner,
  shadowing `reconnectAttempt`), or `none` when `err` was nil and the
  strategy was `Reset` instead. -/
  delayArg : Option Int
  /-- the delay slept before retrying, when any. -/
  delay : Option Int
deriving DecidableEq, Repr

/-- One iteration of the `for` loop in `MaintainTunnel`, with the
`ReconnectStrategy` instantiated to `*ExponentialBackoff` as `cmd/root.go`
does.  `r` is the jitter drawn inside `NextDelay`. -/
def maintainStep (st : MaintainState) (o : AttemptOutcome) (r : ℚ) :
    MaintainState × StepRecord :=
  let res := handleConnection st.reconnectAttempt o st.stats
  match res.err with
  | some _ =>
      let d := st.backoff.NextDelay res.attempt r
      ({ st with stats := res.stats, backoff := d.2 },
       { attemptPassed := st.reconnectAttempt, delayArg := some res.attempt,
         delay := some d.1 })
  | none =>
      ({ st with stats := res.stats, backoff := st.backoff.Reset },
       { attemptPassed := st.reconnectAttempt, delayArg := none, delay := none })

/-- Run the `MaintainTunnel` loop over a finite schedule of attempt outcomes
(the run ends when the context is cancelled). -/
def maintainRun (st : MaintainState) : List (AttemptOutcome × ℚ) → List StepRecord
  | [] => []
  | (o, r) :: rest =>
      let s := maintainStep st o r
      s.2 :: maintainRun s.1 rest

/-- `MaintainTunnel` from `api/tunnel.go`: before the loop it initialises the
process-wide pool with `packetBufferPool = NewNetBuffer(config.MTU)`; a
non-positive MTU therefore panics (modelled as `Except.error`) before any
connection attempt.  On success it returns the initial pool together with
the per-iteration observations. -/
def MaintainTunnel (mtu : Int) (b : ExponentialBackoff)
    (run : List (AttemptOutcome × ℚ)) :
    Except String (NetBuffer × List StepRecord) :=
  (NewNetBuffer mtu).map fun pool =>
    (pool, maintainRun { reconnectAttempt := 0, stats := ⟨0, 0⟩, backoff := b } run)

/-! ## Caching DNS resolver (`api/resolver.go`) -/

/-- `DNSCacheEntry` from `api/resolver.go`; time instants are `Int`
nanoseconds, addresses are strings. -/
structure DNSCacheEntry where
  IP : String
  ExpiresAt : Int
deriving DecidableEq, Repr

/-- `CachingDNSResolver` from `api/resolver.go`; the `map[string]DNSCacheEntry`
is modelled as an association list (first binding wins, as `insertCache`
maintains). -/
structure CachingDNSResolver where
  DNSServer : String
  CacheTTL : Int
  cache : List (String × DNSCacheEntry)
deriving DecidableEq, Repr

/-- Oracle for what the upstream DNS query (the goroutine in `Resolve`) and
the surrounding `select` produce on a cache miss. -/
inductive LookupOutcome
  /-- lookup succeeded, `ips[0] = ip`. -/
  | ok (ip : String)
  /-- `resolver.LookupIP` returned an error. -/
  | err (e : String)
  /-- lookup returned zero addresses (`net.ErrClosed` is surfaced). -/
  | noAddrs
  /-- the caller's context was cancelled first (`ctx.Err()` text). -/
  | ctxCancelled (e : String)
deriving DecidableEq, Repr

/-- Result of one `Resolve` call: the returned value, the resolver state
afterwards, and whether an upstream lookup was issued. -/
structure ResolveResult where
  result : Except String String
  resolver : CachingDNSResolver
  lookupPerformed : Bool
deriving Repr

/-- Go map assignment `r.cache[name] = e` on the association-list model. -/
def insertCache (c : List (String × DNSCacheEntry)) (name : String)
    (e : DNSCacheEntry) : List (String × DNSCacheEntry) :=
  (name, e) :: c.filter fun p => p.1 ≠ name

/-- The cache-miss tail of `CachingDNSResolver.Resolve`: spawn the lookup
goroutine, wait in `select`, and on success store
`ExpiresAt = now + CacheTTL seconds`. -/
def resolveMiss (r : CachingDNSResolver) (now : Int) (name : String)
    (o : LookupOutcome) : ResolveResult :=
  match o with
  | .ctxCancelled e => { result := .error e, resolver := r, lookupPerformed := true }
  | .err e => { result := .error e, resolver := r, lookupPerformed := true }
  | .noAddrs =>
      { result := .error "use of closed network connection", resolver := r,
        lookupPerformed := true }
  | .ok ip =>
      { result := .ok ip,
        resolver := { r with
          cache := insertCache r.cache name ⟨ip, now + r.CacheTTL * 1000000000⟩ },
        lookupPerformed := true }

/-- `CachingDNSResolver.Resolve` from `api/resolver.go`:
`cacheHit := exists && now.Before(entry.ExpiresAt)` (strict comparison); on a
hit the cached IP is returned with no lookup and no cache mutation. -/
def CachingDNSResolver.Resolve (r : CachingDNSResolver) (now : Int) (name : String)
    (o : LookupOutcome) : ResolveResult :=
  match r.cache.lookup name with
  | some entry =>
      if now < entry.ExpiresAt then
        { result := .ok entry.IP, resolver := r, lookupPerformed := false }
      else resolveMiss r now name o
  | none => resolveMiss r now name o

/-! ## Idle-timeout connection wrapper (`models.TimeoutConn`) -/

/-- `TimeoutConn`: a wrapped `net.Conn` with an idle timeout. -/
structure TimeoutConn where
  IdleTimeout : Int
deriving DecidableEq, Repr

/-- Observable calls a `TimeoutConn` makes on the wrapped connection. -/
inductive IOEvent
  | setReadDeadline (t : Int)
  | setWriteDeadline (t : Int)
  | connRead
  | connWrite
deriving DecidableEq, Repr

/-- Result of a `Read`/`Write` on a `TimeoutConn`: byte count, error, and
the calls made on the wrapped connection, in order. -/
structure IOResult where
  n : Nat
  err : Option String
  events : List IOEvent
deriving DecidableEq, Repr

/-- `TimeoutConn.Read`: when `IdleTimeout > 0`, set the read deadline to
`now + IdleTimeout` first; a deadline error is returned as `(0, err)`
without invoking the wrapped `Read`.  `setErr` is the oracle for
`SetReadDeadline`'s result and `inner` for the wrapped `Read`'s result. -/
def TimeoutConn.Read (c : TimeoutConn) (now : Int) (setErr : Option String)
    (inner : Nat × Option String) : IOResult :=
  if 0 < c.IdleTimeout then
    match setErr with
    | some e => { n := 0, err := some e, events := [.setReadDeadline (now + c.IdleTimeout)] }
    | none =>
        { n := inner.1, err := inner.2,
          events := [.setReadDeadline (now + c.IdleTimeout), .connRead] }
  else { n := inner.1, err := inner.2, events := [.connRead] }

/-- `TimeoutConn.Write`, symmetric to `TimeoutConn.Read`. -/
def TimeoutConn.Write (c : TimeoutConn) (now : Int) (setErr : Option String)
    (inner : Nat × Option String) : IOResult :=
  if 0 < c.IdleTimeout then
    match setErr with
    | some e => { n := 0, err := some e, events := [.setWriteDeadline (now + c.IdleTimeout)] }
    | none =>
        { n := inner.1, err := inner.2,
          events := [.setWriteDeadline (now + c.IdleTimeout), .connWrite] }
  else { n := inner.1, err := inner.2, events := [.connWrite] }

/-! ## Config durations (`config/config.go`: `Duration`)

`config.Duration` delegates to `time.ParseDuration` and
`time.Duration.String` of the Go standard library, so those two functions
are embedded here as well, over `List Char` (Go strings are byte slices;
the only multi-byte rune involved, 'µ', is a single `Char` here).
`uint64` arithmetic stays in `Nat` with the source's explicit `1<<63`
overflow checks.  The `float64` fraction arithmetic of `ParseDuration`
(`uint64(float64(f) * (float64(unit) / scale))`, with `scale` a power of
ten accumulated in `leadingFraction`) is modelled as `f * unit / scale` in
`Nat`; the two agree whenever the division is exact — in particular on
every string `Duration.String` can produce, where `scale` divides `unit` —
and both truncate toward zero. -/

/-- `time.Nanosecond`. -/
def Nanosecond : Nat := 1

/-- `time.Microsecond`. -/
def Microsecond : Nat := 1000

/-- `time.Millisecond`. -/
def Millisecond : Nat := 1000000

/-- `time.Second`. -/
def Second : Nat := 1000000000

/-- `time.Minute`. -/
def Minute : Nat := 60000000000

/-- `time.Hour`. -/
def Hour : Nat := 3600000000000

/-- `byte(digit) + '0'`. -/
def digitChar (d : Nat) : Char := Char.ofNat (48 + d)

/-- `'0' <= c && c <= '9'`. -/
def isDigit (c : Char) : Bool := '0' ≤ c && c ≤ '9'

/-- `uint64(c) - '0'`. -/
def digitVal (c : Char) : Nat := c.toNat - 48

/-- The digit-emitting loop of Go `fmtInt` (time/format.go): emit `v % 10`
into the buffer right-to-left while dividing `v` by 10 until it reaches 0.
`fuel` bounds the number of iterations; any `fuel ≥ v` behaves like the Go
loop (a number has at most as many decimal digits as its value). -/
def natChars : Nat → Nat → List Char
  | 0, _ => []
  | fuel + 1, v =>
      if v = 0 then [] else natChars fuel (v / 10) ++ [digitChar (v % 10)]

/-- Go `fmtInt` (time/format.go): the decimal digits of `v`, most
significant first, just `'0'` for zero. -/
def fmtInt (v : Nat) : List Char :=
  if v = 0 then ['0'] else natChars v v

/-- Go `fmtFrac`'s loop (time/time.go): scan the `prec` least significant
digits of `v` from the least significant up, start printing at the first
nonzero digit, divide `v` by 10 each step.  Returns the printed characters
(in final string order), the final `print` flag and the final `v`. -/
def fmtFracGo : Nat → Nat → Bool → List Char × Bool × Nat
  | 0, v, print => ([], print, v)
  | p + 1, v, print =>
      let digit := v % 10
      let print1 := print || decide (digit ≠ 0)
      let res := fmtFracGo p (v / 10) print1
      (res.1 ++ (if print1 then [digitChar digit] else []), res.2.1, res.2.2)

/-- Go `fmtFrac`: the fraction characters (with the leading `'.'`, empty
when the fraction is zero) and `v / 10^prec`. -/
def fmtFrac (v : Nat) (prec : Nat) : List Char × Nat :=
  let r := fmtFracGo prec v false
  ((if r.2.1 then '.' :: r.1 else r.1), r.2.2)

/-- The body of Go `time.Duration.String` (time/format.go) for `u := |d|`:
sub-second durations use the `ns`/`µs`/`ms` forms, others the
`[Hh][Mm]S[.F]s` form. -/
def durStringBody (u : Nat) : List Char :=
  if u < Second then
    if u = 0 then ['0', 's']
    else if u < Microsecond then
      fmtInt u ++ ['n', 's']
    else if u < Millisecond then
      let fr := fmtFrac u 3
      fmtInt fr.2 ++ fr.1 ++ ['µ', 's']
    else
      let fr := fmtFrac u 6
      fmtInt fr.2 ++ fr.1 ++ ['m', 's']
  else
    let fr := fmtFrac u 9
    let secs := fr.2
    let sPart := fmtInt (secs % 60) ++ fr.1 ++ ['s']
    let mins := secs / 60
    if mins = 0 then sPart
    else
      let mPart := fmtInt (mins % 60) ++ ['m'] ++ sPart
      let hours := mins / 60
      if hours = 0 then mPart else fmtInt hours ++ ['h'] ++ mPart

/-- Go `time.Duration.String`: the body for `|d|`, with a leading `'-'`
for negative durations. -/
def durString (d : Int) : List Char :=
  if d < 0 then '-' :: durStringBody d.natAbs else durStringBody d.natAbs

/-- Go `leadingInt`: consume leading digits into a `uint64` accumulator,
erroring out on overflow past `1<<63`. -/
def leadingInt : List Char → Nat → Except Unit (Nat × List Char)
  | [], x => .ok (x, [])
  | c :: rest, x =>
      if isDigit c then
        if x > 2 ^ 63 / 10 then .error ()
        else
          let x1 := x * 10 + digitVal c
          if x1 > 2 ^ 63 then .error () else leadingInt rest x1
      else .ok (x, c :: rest)

/-- Result of Go `leadingFraction`: digits value, scale (a power of ten;
a `float64` in Go, exact for every value reachable here), rest. -/
structure FracResult where
  f : Nat
  scale : Nat
  rest : List Char
deriving DecidableEq, Repr

/-- Go `leadingFraction`: consume leading digits; once the accumulator
would overflow, keep consuming but stop accumulating. -/
def leadingFraction : List Char → Nat → Nat → Bool → FracResult
  | [], x, scale, _ => ⟨x, scale, []⟩
  | c :: rest, x, scale, overflow =>
      if isDigit c then
        if overflow then leadingFraction rest x scale overflow
        else if x > (2 ^ 63 - 1) / 10 then leadingFraction rest x scale true
        else
          let y := x * 10 + digitVal c
          if y > 2 ^ 63 then leadingFraction rest x scale true
          else leadingFraction rest y (scale * 10) false
      else ⟨x, scale, c :: rest⟩

/-- The unit-consuming scan of `ParseDuration`: take characters up to the
next `'.'` or digit. -/
def takeUnit : List Char → List Char × List Char
  | [] => ([], [])
  | c :: rest =>
      if c = '.' || isDigit c then ([], c :: rest)
      else
        let r := takeUnit rest
        (c :: r.1, r.2)

/-- Go `unitMap`. -/
def unitMap (u : List Char) : Option Nat :=
  if u = ['n', 's'] then some Nanosecond
  else if u = ['u', 's'] then some Microsecond
  else if u = ['µ', 's'] then some Microsecond
  else if u = ['μ', 's'] then some Microsecond
  else if u = ['m', 's'] then some Millisecond
  else if u = ['s'] then some Second
  else if u = ['m'] then some Minute
  else if u = ['h'] then some Hour
  else none

/-- The `(\.[0-9]*)?` step of the `ParseDuration` loop body: when the input
starts with `'.'`, run `leadingFraction` on what follows; returns
`(f, scale, rest, post)`. -/
def fracProbe (s1 : List Char) : Nat × Nat × List Char × Bool :=
  match s1 with
  | '.' :: s2 =>
      let lf := leadingFraction s2 0 1 false
      (lf.f, lf.scale, lf.rest, decide (lf.rest.length ≠ s2.length))
  | _ => (0, 1, s1, false)

/-- One iteration of the `for s != ""` loop body of `ParseDuration`:
parse `[0-9]*(\.[0-9]*)?unit` and return the term's value in nanoseconds
together with the remaining input. -/
def parseTerm (s : List Char) : Except Unit (Nat × List Char) :=
  match s with
  | [] => .error ()
  | c0 :: _ =>
      if ¬(c0 = '.' ∨ isDigit c0) then .error ()
      else
        match leadingInt s 0 with
        | .error _ => .error ()
        | .ok (v, s1) =>
            let pre : Bool := s1.length ≠ s.length
            let fp := fracProbe s1
            let f := fp.1
            let scale := fp.2.1
            let s2 := fp.2.2.1
            let post := fp.2.2.2
            if ¬pre ∧ ¬post then .error ()
            else
              let us := takeUnit s2
              if us.1 = [] then .error ()
              else
                match unitMap us.1 with
                | none => .error ()
                | some unit =>
                    if v > 2 ^ 63 / unit then .error ()
                    else
                      let v1 := v * unit
                      if f > 0 then
                        let v2 := v1 + f * unit / scale
                        if v2 > 2 ^ 63 then .error () else .ok (v2, us.2)
                      else .ok (v1, us.2)

/-- The `for s != ""` loop of `ParseDuration`, accumulating `d` with its
overflow check.  The Go loop terminates because every iteration consumes at
least the (nonempty) unit; here that progress is supplied as fuel, set to
the input length by `ParseDuration` below (an iteration consumes at least
one character, so the fuel never runs out first). -/
def parseLoop : Nat → List Char → Nat → Except Unit Nat
  | _, [], d => .ok d
  | 0, _ :: _, _ => .error ()
  | fuel + 1, c :: rest0, d =>
      match parseTerm (c :: rest0) with
      | .error _ => .error ()
      | .ok (v, rest) =>
          let d1 := d + v
          if d1 > 2 ^ 63 then .error () else parseLoop fuel rest d1

/-- The `[-+]?` consumption at the head of `ParseDuration`: returns the
`neg` flag and the remaining input. -/
def signProbe (s : List Char) : Bool × List Char :=
  match s with
  | '-' :: rest => (true, rest)
  | '+' :: rest => (false, rest)
  | _ => (false, s)

/-- The tail of `ParseDuration`: negate on `'-'`, otherwise reject values
above `1<<63 - 1`. -/
def finishParse (neg : Bool) (r : Except Unit Nat) : Except Unit Int :=
  match r with
  | .error _ => .error ()
  | .ok d =>
      if neg then .ok (-(d : Int))
      else if d > 2 ^ 63 - 1 then .error ()
      else .ok (d : Int)

/-- Go `time.ParseDuration` on a `List Char`: optional sign, the `"0"`
special case, the term loop, and the final negation / range check. -/
def ParseDuration (s : List Char) : Except Unit Int :=
  let sg := signProbe s
  let neg := sg.1
  let s1 := sg.2
  if s1 = ['0'] then .ok 0
  else if s1 = [] then .error ()
  else finishParse neg (parseLoop s1.length s1 0)

/-- The raw JSON value handed to `Duration.UnmarshalJSON`, after the JSON
layer: a string literal's contents, an integer, or an empty byte slice. -/
inductive RawJSON
  | jstr (s : List Char)
  | jnum (n : Int)
  | jempty
deriving DecidableEq, Repr

/-- `config.Duration.UnmarshalJSON`: an empty input yields 0; a string is
parsed with `time.ParseDuration`; anything else is decoded as an `int64`
nanosecond count (the JSON layer rejects out-of-range integers). -/
def durUnmarshalJSON (b : RawJSON) : Except Unit Int :=
  match b with
  | .jempty => .ok 0
  | .jstr s => ParseDuration s
  | .jnum n => if -(2 ^ 63) ≤ n ∧ n < 2 ^ 63 then .ok n else .error ()

/-- `config.Duration.MarshalJSON`: always the `time.Duration.String` form,
as a JSON string. -/
def durMarshalJSON (d : Int) : RawJSON := .jstr (durString d)

/-! ### Proof auxiliaries for the duration round-trip -/

/-- Proof auxiliary: the numeric value of a most-significant-first digit
character list under accumulator `x` — exactly the accumulation both
`leadingInt` and `leadingFraction` perform. -/
def valOf (x : Nat) : List Char → Nat
  | [] => x
  | c :: rest => valOf (x * 10 + digitVal c) rest

/-- Proof auxiliary: the list is empty or does not start with a digit
(where `leadingInt` and `leadingFraction` stop). -/
def noLeadDigit : List Char → Prop
  | [] => True
  | c :: _ => isDigit c = false

instance (l : List Char) : Decidable (noLeadDigit l) := by
  cases l with
  | nil => exact isTrue trivial
  | cons c _ => exact (inferInstance : Decidable (isDigit c = false))

/-- Proof auxiliary: the list is empty or starts with `'.'` or a digit
(where the unit scan of `ParseDuration` stops). -/
def leadDigitOrDot : List Char → Prop
  | [] => True
  | c :: _ => c = '.' ∨ isDigit c = true

instance (l : List Char) : Decidable (leadDigitOrDot l) := by
  cases l with
  | nil => exact isTrue trivial
  | cons c _ => exact (inferInstance : Decidable (c = '.' ∨ isDigit c = true))

/-! # Theorems -/

/-! ## Buffer pool helpers -/

/-- A buffer acquired from a well-formed pool has the pool's capacity:
stored slices have it by well-formedness, and on a pool miss `New`
allocates `make([]byte, capacity)`. -/
theorem NetBuffer.GetBuf_cap (n : NetBuffer) (h : n.WF) : n.GetBuf.1 = n.capacity := by
  obtain ⟨-, h2⟩ := h
  cases hp : n.pool with
  | nil => simp [NetBuffer.GetBuf, hp]
  | cons c rest => simpa [NetBuffer.GetBuf, hp] using h2 c (by rw [hp]; exact List.mem_cons_self c rest)

/-- `PutBuf` drops a buffer whose capacity differs from the pool's. -/
theorem NetBuffer.PutBuf_drop (n : NetBuffer) (bufCap : Int) (h : bufCap ≠ n.capacity) :
    n.PutBuf bufCap = n := by
  simp [NetBuffer.PutBuf, h]

/-- `PutBuf` stores a buffer whose capacity matches the pool's. -/
theorem NetBuffer.PutBuf_store (n : NetBuffer) :
    n.PutBuf n.capacity = { n with pool := n.capacity :: n.pool } := by
  simp [NetBuffer.PutBuf]

/-! ## C10 -/

/-- **C10** (confirmed).  `NewNetBuffer` panics exactly on capacities ≤ 0 and
returns a usable empty pool of that capacity otherwise; since
`MaintainTunnel` runs `packetBufferPool = NewNetBuffer(config.MTU)` on
entry, a configuration with MTU ≤ 0 makes the maintenance loop panic
before any connection attempt (the run aborts with the panic message and
produces no step records). -/
theorem NewNetBuffer_panic_policy (c1 c2 mtu : Int) (b : ExponentialBackoff)
    (run : List (AttemptOutcome × ℚ))
    (h1 : c1 ≤ 0) (h2 : 0 < c2) (h3 : mtu ≤ 0) :
    NewNetBuffer c1 = .error "capacity must be greater than 0" ∧
    NewNetBuffer c2 = .ok { capacity := c2, pool := [] } ∧
    MaintainTunnel mtu b run = .error "capacity must be greater than 0" := by
  refine ⟨?_, ?_, ?_⟩ <;>
    simp [NewNetBuffer, MaintainTunnel, h1, h3, not_le.mpr h2, Except.map]

/-- Witness for `NewNetBuffer_panic_policy` at capacity 0, capacity 1280
(the default MTU) and MTU −1. -/
theorem NewNetBuffer_panic_policy_witness :
    NewNetBuffer 0 = .error "capacity must be greater than 0" ∧
    NewNetBuffer 1280 = .ok { capacity := 1280, pool := [] } ∧
    MaintainTunnel (-1) ⟨1000000000, 300000000000, 2, 0⟩ []
      = .error "capacity must be greater than 0" :=
  NewNetBuffer_panic_policy 0 1280 (-1) ⟨1000000000, 300000000000, 2, 0⟩ []
    (by norm_num) (by norm_num) (by norm_num)

/-! ## C6 -/

/-- **C6** (confirmed).  If the CONNECT-IP dial succeeds but the HTTP status
is not 200, `handleConnection(a)` increments the error counter and returns
`(a+1, error with the status text)`, without recording a handshake and
without starting forwarding. -/
theorem handleConnection_rejected (a : Int) (code : Nat) (status : String)
    (fwd : Option String) (st : TunnelStats) (h : code ≠ 200) :
    (handleConnection a (.dialOK code status fwd) st).attempt = a + 1 ∧
    (handleConnection a (.dialOK code status fwd) st).err
      = some ("tunnel connection failed: " ++ status) ∧
    (handleConnection a (.dialOK code status fwd) st).stats.Errors = st.Errors + 1 ∧
    (handleConnection a (.dialOK code status fwd) st).stats.HandShake = st.HandShake ∧
    TEvent.forwardingRun ∉ (handleConnection a (.dialOK code status fwd) st).events := by
  simp [handleConnection, h]

/-- Witness for `handleConnection_rejected`: HTTP 403 on attempt 4. -/
theorem handleConnection_rejected_witness :
    (handleConnection 4 (.dialOK 403 "403 Forbidden" none) ⟨2, 1⟩).attempt = 4 + 1 ∧
    (handleConnection 4 (.dialOK 403 "403 Forbidden" none) ⟨2, 1⟩).err
      = some ("tunnel connection failed: " ++ "403 Forbidden") ∧
    (handleConnection 4 (.dialOK 403 "403 Forbidden" none) ⟨2, 1⟩).stats.Errors = 2 + 1 ∧
    (handleConnection 4 (.dialOK 403 "403 Forbidden" none) ⟨2, 1⟩).stats.HandShake = 1 ∧
    TEvent.forwardingRun ∉ (handleConnection 4 (.dialOK 403 "403 Forbidden" none) ⟨2, 1⟩).events :=
  handleConnection_rejected 4 403 "403 Forbidden" none ⟨2, 1⟩ (by norm_num)

/-! ## C5 -/

/-- **C5, counterexample.**  After a successful dial the deferred closes of
`handleConnection` run in source order `ipConn.Close(); udpConn.Close();
tr.Close()` — IP connection, UDP socket, QUIC transport — which differs
from the claimed order (IP connection, QUIC transport, UDP socket). -/
theorem handleConnection_teardown_not_as_claimed :
    (handleConnection 0 (.dialOK 200 "200 OK" none) ⟨0, 0⟩).events.filter TEvent.isClose
      = [.closeIPConn, .closeUDPConn, .closeTransport] ∧
    ([TEvent.closeIPConn, .closeUDPConn, .closeTransport] ≠ specTeardownOrder) := by
  constructor
  · rfl
  · decide

/-- **C5 amended** (proved).  Whenever `handleConnection` returns after a
successful CONNECT-IP dial, regardless of outcome, the three tunnel-side
resources are torn down — the IP-packet connection, then the UDP socket,
then the QUIC transport, in that order. -/
theorem handleConnection_teardown (a : Int) (code : Nat) (status : String)
    (fwd : Option String) (st : TunnelStats) :
    (handleConnection a (.dialOK code status fwd) st).events.filter TEvent.isClose
      = [.closeIPConn, .closeUDPConn, .closeTransport] := by
  by_cases h : code = 200 <;> simp [handleConnection, h, TEvent.isClose]

/-! ## C1 -/

/-- **C1** (code bug).  In `MaintainTunnel` the loop body's
`reconnectAttempt, err := handleConnection(...)` is a short variable
declaration in an inner scope, so the outer `reconnectAttempt` is never
updated: every iteration passes the same initial value (0) to
`handleConnection`, and after every failed dial `NextDelay` is computed
from the same argument 1, so consecutive failed attempts do not widen the
backoff window.  First conjunct: over every schedule the attempt passed is
constant.  Second conjunct: two consecutive dial failures both pass
attempt 0, both call `NextDelay 1`, and both sleep the same 180ns (with
`InitialDelay` 100ns, `Factor` 2, jitter draw 0). -/
theorem maintain_attempt_never_incremented :
    (∀ (st : MaintainState) (run : List (AttemptOutcome × ℚ)),
        (maintainRun st run).map StepRecord.attemptPassed
          = List.replicate run.length st.reconnectAttempt) ∧
    (maintainRun ⟨0, ⟨0, 0⟩, ⟨100, 10000, 2, 0⟩⟩
        [(.dialErr "dial failed", 0), (.dialErr "dial failed", 0)]).map
        (fun s => (s.attemptPassed, s.delayArg, s.delay))
      = [(0, some 1, some 180), (0, some 1, some 180)] := by
  constructor
  · intro st run
    induction run generalizing st with
    | nil => rfl
    | cons p rest ih =>
        obtain ⟨o, r⟩ := p
        cases h : (handleConnection st.reconnectAttempt o st.stats).err <;>
          simp [maintainRun, maintainStep, h, ih, List.replicate_succ]
  · norm_num [maintainRun, maintainStep, handleConnection,
      ExponentialBackoff.NextDelay, ExponentialBackoff.preJitterDelay,
      backoffLoop, goTrunc, ExponentialBackoff.Reset]

/-! ## C3 -/

/-- **C3, counterexample.**  With a configured MTU of 4096 the pool's
buffers have capacity 4096 ≥ 2·`packetBuffCap`; on the happy path of the
egress loop (packet read and submitted successfully) the guard
`cap(*buf) < 2*packetBuffCap` fails, so `PutBuf` is invoked zero times on
that acquired buffer — not exactly once as claimed. -/
theorem egress_happy_path_zero_releases :
    NewNetBuffer 4096 = .ok { capacity := 4096, pool := [] } ∧
    ({ capacity := 4096, pool := [] } : NetBuffer).GetBuf.1 = 4096 ∧
    egressPutBufCalls 4096 (.delivered 0 true) = 0 := by
  refine ⟨rfl, rfl, ?_⟩
  decide

/-- **C3 amended** (proved).  Provided the pool's configured capacity (the
MTU) is below `2*packetBuffCap` = 4096 bytes, every buffer acquired from
the pool during a forwarding session has the pool's release operation
invoked on it exactly once before its loop iteration ends — on the happy
path as well as on every error path before or after submission.  (For
MTU ≥ 4096 the happy paths invoke it zero times, per the counterexample.) -/
theorem forwarding_release_exactly_once (n : NetBuffer) (o1 : EgressOutcome)
    (o2 : IngressOutcome) (hWF : n.WF) (hcap : n.capacity < 2 * packetBuffCap) :
    egressPutBufCalls n.GetBuf.1 o1 = 1 ∧ ingressPutBufCalls n.GetBuf.1 o2 = 1 := by
  rw [NetBuffer.GetBuf_cap n hWF]
  cases o1 <;> cases o2 <;> simp [egressPutBufCalls, ingressPutBufCalls, hcap]

/-- Witness for `forwarding_release_exactly_once`: the default MTU 1280,
one happy-path egress iteration and one ingress iteration that fails at
the device write. -/
theorem forwarding_release_exactly_once_witness :
    egressPutBufCalls ({ capacity := 1280, pool := [] } : NetBuffer).GetBuf.1
        (.delivered 28 true) = 1 ∧
    ingressPutBufCalls ({ capacity := 1280, pool := [] } : NetBuffer).GetBuf.1
        .devWriteErr = 1 :=
  forwarding_release_exactly_once { capacity := 1280, pool := [] } (.delivered 28 true)
    .devWriteErr (by constructor <;> simp [NetBuffer.WF]) (by norm_num [packetBuffCap])

/-! ## C4 -/

/-- **C4, counterexample.**  A normal MTU-sized buffer (capacity equal to
the pool's configured capacity, here 4096) is not returned to the pool
after its packet is submitted on the ingress happy path: the forwarding
guard compares against the constant `2*packetBuffCap` = 4096, not twice
the pool's configured capacity, so the pool stays unchanged even though
4096 < 2·4096. -/
theorem mtu_sized_buffer_not_returned :
    ingressPoolAfter { capacity := 4096, pool := [] } 4096 .ok
      = { capacity := 4096, pool := [] } ∧
    ¬(2 * (4096 : Int) ≤ 4096) := by
  constructor
  · decide
  · decide

/-- **C4 amended** (proved).  A buffer whose capacity is at least twice the
pool's configured capacity is never returned to the pool on any path (even
where the forwarding guard invokes `PutBuf`, `PutBuf`'s own capacity check
drops it); and every normal MTU-sized buffer is returned after its packet
is submitted, provided the configured capacity is below the constant
`2*packetBuffCap` = 4096 the forwarding guard actually compares against. -/
theorem pool_return_policy (n : NetBuffer) (bufCap : Int) (o1 : EgressOutcome)
    (o2 : IngressOutcome) (hpos : 0 < n.capacity) :
    (2 * n.capacity ≤ bufCap →
        egressPoolAfter n bufCap o1 = n ∧ ingressPoolAfter n bufCap o2 = n) ∧
    (n.capacity < 2 * packetBuffCap →
        ∀ (icmpLen : Nat) (icmpOk : Bool),
          egressPoolAfter n n.capacity (.delivered icmpLen icmpOk)
              = { n with pool := n.capacity :: n.pool } ∧
          ingressPoolAfter n n.capacity .ok
              = { n with pool := n.capacity :: n.pool }) := by
  constructor
  · intro hge
    have hput : n.PutBuf bufCap = n := n.PutBuf_drop bufCap (by omega)
    constructor
    · cases o1 with
      | readErr => simp [egressPoolAfter, hput]
      | ipWriteErr => simp [egressPoolAfter, hput]
      | delivered icmpLen icmpOk =>
          simp only [egressPoolAfter]
          split <;> simp [hput]
    · cases o2 with
      | readErr => simp [ingressPoolAfter, hput]
      | devWriteErr => simp [ingressPoolAfter, hput]
      | ok =>
          simp only [ingressPoolAfter]
          split <;> simp [hput]
  · intro hlt icmpLen icmpOk
    constructor
    · simp [egressPoolAfter, hlt, NetBuffer.PutBuf_store]
    · simp [ingressPoolAfter, hlt, NetBuffer.PutBuf_store]

/-- Witness for `pool_return_policy`: MTU 1500 pool, an oversized 3000-byte
buffer (dropped on both loops' error paths), and the pool's own
1500-byte buffers (returned after submission). -/
theorem pool_return_policy_witness :
    (2 * (1500 : Int) ≤ 3000 →
        egressPoolAfter { capacity := 1500, pool := [] } 3000 .readErr
            = { capacity := 1500, pool := [] } ∧
        ingressPoolAfter { capacity := 1500, pool := [] } 3000 .readErr
            = { capacity := 1500, pool := [] }) ∧
    ((1500 : Int) < 2 * packetBuffCap →
        ∀ (icmpLen : Nat) (icmpOk : Bool),
          egressPoolAfter { capacity := 1500, pool := [] } 1500 (.delivered icmpLen icmpOk)
              = { capacity := 1500, pool := [1500] } ∧
          ingressPoolAfter { capacity := 1500, pool := [] } 1500 .ok
              = { capacity := 1500, pool := [1500] }) :=
  pool_return_policy { capacity := 1500, pool := [] } 3000 .readErr .readErr (by norm_num)

/-! ## C7 -/

/-- **C7** (confirmed).  If the resolver cache has an entry for the hostname
and the current time is strictly before its expiry, `Resolve` returns the
cached address, performs no upstream lookup and leaves the resolver
unchanged. -/
theorem Resolve_cache_hit (r : CachingDNSResolver) (now : Int) (name : String)
    (e : DNSCacheEntry) (o : LookupOutcome)
    (hfind : r.cache.lookup name = some e) (hfresh : now < e.ExpiresAt) :
    r.Resolve now name o
      = { result := .ok e.IP, resolver := r, lookupPerformed := false } := by
  simp [CachingDNSResolver.Resolve, hfind, hfresh]

/-- Witness for `Resolve_cache_hit`: a cached entry for `example.com`
expiring at t=1000, queried at t=500 while the upstream would fail. -/
theorem Resolve_cache_hit_witness :
    CachingDNSResolver.Resolve
        ⟨"8.8.8.8:53", 600, [("example.com", ⟨"93.184.216.34", 1000⟩)]⟩
        500 "example.com" (.err "network unreachable")
      = { result := .ok "93.184.216.34",
          resolver := ⟨"8.8.8.8:53", 600, [("example.com", ⟨"93.184.216.34", 1000⟩)]⟩,
          lookupPerformed := false } :=
  Resolve_cache_hit ⟨"8.8.8.8:53", 600, [("example.com", ⟨"93.184.216.34", 1000⟩)]⟩
    500 "example.com" ⟨"93.184.216.34", 1000⟩ (.err "network unreachable")
    (by rfl) (by norm_num)

/-! ## C8 -/

/-- **C8** (confirmed).  With idle timeout T > 0, every `Read` first sets
the read deadline to now + T and every `Write` first sets the write
deadline to now + T; if setting the deadline fails, the error is the I/O
result (0 bytes) and the wrapped connection is not invoked, otherwise the
wrapped operation runs and its result is returned. -/
theorem TimeoutConn_deadline_discipline (c : TimeoutConn) (now : Int)
    (se we : Option String) (ir iw : Nat × Option String) (hT : 0 < c.IdleTimeout) :
    (c.Read now se ir).events.head? = some (.setReadDeadline (now + c.IdleTimeout)) ∧
    (c.Write now we iw).events.head? = some (.setWriteDeadline (now + c.IdleTimeout)) ∧
    (∀ e, se = some e →
        c.Read now se ir = ⟨0, some e, [.setReadDeadline (now + c.IdleTimeout)]⟩) ∧
    (se = none →
        c.Read now se ir
          = ⟨ir.1, ir.2, [.setReadDeadline (now + c.IdleTimeout), .connRead]⟩) ∧
    (∀ e, we = some e →
        c.Write now we iw = ⟨0, some e, [.setWriteDeadline (now + c.IdleTimeout)]⟩) ∧
    (we = none →
        c.Write now we iw
          = ⟨iw.1, iw.2, [.setWriteDeadline (now + c.IdleTimeout), .connWrite]⟩) := by
  cases se <;> cases we <;>
    simp [TimeoutConn.Read, TimeoutConn.Write, hT]

/-- Witness for `TimeoutConn_deadline_discipline`: T = 300s, a failing
`SetReadDeadline` and a succeeding write path. -/
theorem TimeoutConn_deadline_discipline_witness :
    (TimeoutConn.Read ⟨300000000000⟩ 7 (some "deadline refused") (5, none)).events.head?
      = some (.setReadDeadline (7 + 300000000000)) ∧
    (TimeoutConn.Write ⟨300000000000⟩ 7 none (9, none)).events.head?
      = some (.setWriteDeadline (7 + 300000000000)) ∧
    (∀ e, (some "deadline refused" : Option String) = some e →
        TimeoutConn.Read ⟨300000000000⟩ 7 (some "deadline refused") (5, none)
          = ⟨0, some e, [.setReadDeadline (7 + 300000000000)]⟩) ∧
    ((some "deadline refused" : Option String) = none →
        TimeoutConn.Read ⟨300000000000⟩ 7 (some "deadline refused") (5, none)
          = ⟨5, none, [.setReadDeadline (7 + 300000000000), .connRead]⟩) ∧
    (∀ e, (none : Option String) = some e →
        TimeoutConn.Write ⟨300000000000⟩ 7 none (9, none)
          = ⟨0, some e, [.setWriteDeadline (7 + 300000000000)]⟩) ∧
    ((none : Option String) = none →
        TimeoutConn.Write ⟨300000000000⟩ 7 none (9, none)
          = ⟨9, none, [.setWriteDeadline (7 + 300000000000), .connWrite]⟩) :=
  TimeoutConn_deadline_discipline ⟨300000000000⟩ 7 (some "deadline refused") none
    (5, none) (9, none) (by norm_num)

/-! ## C2 -/

theorem goTrunc_of_nonneg (q : ℚ) (h : 0 ≤ q) : goTrunc q = ⌊q⌋ := by
  simp [goTrunc, not_lt.mpr h]

/-- The delay-growing loop keeps the delay positive (factor ≥ 1). -/
theorem backoffLoop_pos (f mF : ℚ) (hf : 1 ≤ f) :
    ∀ (n : Nat) (d : Int), 0 < d → 0 < backoffLoop f mF n d := by
  intro n
  induction n with
  | zero => intro d hd; simpa [backoffLoop] using hd
  | succ n ih =>
      intro d hd
      rw [backoffLoop]
      split
      · apply ih
        have hd' : (1 : ℚ) ≤ (d : ℚ) := by exact_mod_cast hd
        have h1 : (1 : ℚ) ≤ (d : ℚ) * f :=
          le_trans hd' (le_mul_of_one_le_right (by linarith) hf)
        have h2 : (1 : Int) ≤ ⌊(d : ℚ) * f⌋ := Int.le_floor.mpr (by exact_mod_cast h1)
        rw [goTrunc_of_nonneg _ (by linarith)]
        omega
      · exact hd

/-- The delay-growing loop is bounded by the exact geometric growth
`d * f^n` (each Go multiplication truncates, and the loop may stop early). -/
theorem backoffLoop_le_geom (f mF : ℚ) (hf : 1 ≤ f) :
    ∀ (n : Nat) (d : Int), 0 < d → (backoffLoop f mF n d : ℚ) ≤ (d : ℚ) * f ^ n := by
  intro n
  induction n with
  | zero => intro d hd; simp [backoffLoop]
  | succ n ih =>
      intro d hd
      have hd0 : (0 : ℚ) ≤ (d : ℚ) := by exact_mod_cast hd.le
      have hdf : (0 : ℚ) ≤ (d : ℚ) * f := mul_nonneg hd0 (by linarith)
      rw [backoffLoop]
      split
      · have hfl : (1 : Int) ≤ ⌊(d : ℚ) * f⌋ := by
          apply Int.le_floor.mpr
          push_cast
          calc (1 : ℚ) ≤ (d : ℚ) := by exact_mod_cast hd
            _ ≤ (d : ℚ) * f := le_mul_of_one_le_right hd0 hf
        have step := ih (goTrunc ((d : ℚ) * f)) (by rw [goTrunc_of_nonneg _ hdf]; omega)
        rw [goTrunc_of_nonneg _ hdf] at step ⊢
        calc (backoffLoop f mF n ⌊(d : ℚ) * f⌋ : ℚ)
            ≤ (⌊(d : ℚ) * f⌋ : ℚ) * f ^ n := step
          _ ≤ ((d : ℚ) * f) * f ^ n := by
              apply mul_le_mul_of_nonneg_right (Int.floor_le _)
              positivity
          _ = (d : ℚ) * f ^ (n + 1) := by ring
      · calc ((d : Int) : ℚ) ≤ (d : ℚ) * f ^ (n + 1) := by
              apply le_mul_of_one_le_right hd0
              exact one_le_pow₀ hf

/-- **C2, counterexample.**  With `InitialDelay` 6, `MaxDelay` 10,
`Factor` 2 (so `maxDelayInFloat` = 5), attempt 1 and jitter draw 0, the
loop does not run (6 ≥ 5) and `NextDelay` returns 6, which is strictly
below the claimed lower bound 0.9·min(6·2¹, 10) = 9 — the loop stops
before reaching `min(InitialDelay·Factorᵏ, MaxDelay)`. -/
theorem nextDelay_below_claimed_interval :
    (ExponentialBackoff.NextDelay ⟨6, 10, 2, 0⟩ 1 0).1 = 6 ∧
    ((6 : ℚ) < 9 / 10 * min ((6 : ℚ) * 2 ^ (1 : Nat)) 10) := by
  constructor
  · norm_num [ExponentialBackoff.NextDelay, ExponentialBackoff.preJitterDelay,
      backoffLoop, goTrunc]
  · norm_num

/-- **C2 amended** (proved).  For every attempt k ≥ 1, `InitialDelay` > 0,
`Factor` > 1, `MaxDelay` ≥ 0 and jitter draw r ∈ [0,1): the pre-jitter
delay D(k) computed by the loop satisfies D(k) ≤ MaxDelay and
D(k) ≤ min(InitialDelay·Factorᵏ, MaxDelay) (it can be strictly below that
minimum, because the loop stops once the delay reaches MaxDelay/Factor);
the returned delay lies in [0.9·D(k), 1.1·D(k)], and is therefore at most
1.1·MaxDelay (it can exceed MaxDelay itself by the jitter). -/
theorem NextDelay_jitter_bounds (b : ExponentialBackoff) (k : Int) (r : ℚ)
    (hd : 0 < b.InitialDelay) (hf : 1 < b.Factor) (hM : 0 ≤ b.MaxDelay)
    (hr0 : 0 ≤ r) (hr1 : r < 1) (hk : 1 ≤ k) :
    b.preJitterDelay k ≤ b.MaxDelay ∧
    (b.preJitterDelay k : ℚ)
      ≤ min ((b.InitialDelay : ℚ) * b.Factor ^ k.toNat) (b.MaxDelay : ℚ) ∧
    (9 / 10 : ℚ) * (b.preJitterDelay k : ℚ) ≤ ((b.NextDelay k r).1 : ℚ) ∧
    ((b.NextDelay k r).1 : ℚ) ≤ (11 / 10 : ℚ) * (b.preJitterDelay k : ℚ) ∧
    ((b.NextDelay k r).1 : ℚ) ≤ (11 / 10 : ℚ) * (b.MaxDelay : ℚ) := by
  have hk0 : ¬(k ≤ 0) := by omega
  have hf1 : (1 : ℚ) ≤ b.Factor := hf.le
  set mF : ℚ := (b.MaxDelay : ℚ) / b.Factor with hmF
  set L : Int := backoffLoop b.Factor mF k.toNat b.InitialDelay with hL
  have hLpos : 0 < L := backoffLoop_pos b.Factor mF hf1 k.toNat b.InitialDelay hd
  have hLgeom : (L : ℚ) ≤ (b.InitialDelay : ℚ) * b.Factor ^ k.toNat :=
    backoffLoop_le_geom b.Factor mF hf1 k.toNat b.InitialDelay hd
  have hDdef : b.preJitterDelay k = if b.MaxDelay < L then b.MaxDelay else L := by
    rw [ExponentialBackoff.preJitterDelay]
    simp only [hk0, if_false, ← hmF, ← hL]
  set D : Int := b.preJitterDelay k with hD
  have hDM : D ≤ b.MaxDelay := by rw [hDdef]; split <;> omega
  have hDL : D ≤ L := by rw [hDdef]; split <;> omega
  have hD0 : 0 ≤ D := by rw [hDdef]; split <;> omega
  have hDmin : (D : ℚ) ≤ min ((b.InitialDelay : ℚ) * b.Factor ^ k.toNat) (b.MaxDelay : ℚ) := by
    apply le_min
    · calc (D : ℚ) ≤ (L : ℚ) := by exact_mod_cast hDL
        _ ≤ _ := hLgeom
    · exact_mod_cast hDM
  have hval : (b.NextDelay k r).1
      = D - goTrunc ((D : ℚ) * (1 / 10))
        + goTrunc (((goTrunc ((D : ℚ) * (1 / 10)) * 2 : Int) : ℚ) * r) := by
    rw [ExponentialBackoff.NextDelay]
    simp only [hk0, if_false, ← hD]
  set j : Int := goTrunc ((D : ℚ) * (1 / 10)) with hj
  have hD0' : (0 : ℚ) ≤ (D : ℚ) := by exact_mod_cast hD0
  have hjfloor : j = ⌊(D : ℚ) * (1 / 10)⌋ := goTrunc_of_nonneg _ (by positivity)
  have hj0 : 0 ≤ j := by
    rw [hjfloor]
    exact Int.floor_nonneg.mpr (by positivity)
  have hjle : (j : ℚ) ≤ (D : ℚ) * (1 / 10) := by rw [hjfloor]; exact Int.floor_le _
  set t : Int := goTrunc (((j * 2 : Int) : ℚ) * r) with ht
  have htarg : (0 : ℚ) ≤ ((j * 2 : Int) : ℚ) * r := by
    apply mul_nonneg _ hr0
    push_cast
    positivity
  have htfloor : t = ⌊((j * 2 : Int) : ℚ) * r⌋ := goTrunc_of_nonneg _ htarg
  have ht0 : 0 ≤ t := by rw [htfloor]; exact Int.floor_nonneg.mpr htarg
  have htle : (t : ℚ) ≤ ((j * 2 : Int) : ℚ) * r := by rw [htfloor]; exact Int.floor_le _
  have htle2 : (t : ℚ) ≤ 2 * (j : ℚ) := by
    calc (t : ℚ) ≤ ((j * 2 : Int) : ℚ) * r := htle
      _ ≤ ((j * 2 : Int) : ℚ) * 1 := by
          apply mul_le_mul_of_nonneg_left hr1.le
          push_cast
          positivity
      _ = 2 * (j : ℚ) := by push_cast; ring
  have hlow : (9 / 10 : ℚ) * (D : ℚ) ≤ ((b.NextDelay k r).1 : ℚ) := by
    rw [hval]
    push_cast
    have ht0' : (0 : ℚ) ≤ (t : ℚ) := by exact_mod_cast ht0
    nlinarith [hjle]
  have hhigh : ((b.NextDelay k r).1 : ℚ) ≤ (11 / 10 : ℚ) * (D : ℚ) := by
    rw [hval]
    push_cast
    nlinarith [htle2, hjle]
  refine ⟨hDM, hDmin, hlow, hhigh, ?_⟩
  calc ((b.NextDelay k r).1 : ℚ) ≤ (11 / 10 : ℚ) * (D : ℚ) := hhigh
    _ ≤ (11 / 10 : ℚ) * (b.MaxDelay : ℚ) := by
        apply mul_le_mul_of_nonneg_left _ (by norm_num)
        exact_mod_cast hDM

/-- Witness for `NextDelay_jitter_bounds`: `InitialDelay` 100ns,
`MaxDelay` 10000ns, `Factor` 2, attempt 3, jitter draw 1/2. -/
theorem NextDelay_jitter_bounds_witness :
    ExponentialBackoff.preJitterDelay ⟨100, 10000, 2, 0⟩ 3 ≤ (10000 : Int) ∧
    ((ExponentialBackoff.preJitterDelay ⟨100, 10000, 2, 0⟩ 3 : Int) : ℚ)
      ≤ min (((100 : Int) : ℚ) * 2 ^ (3 : Int).toNat) ((10000 : Int) : ℚ) ∧
    (9 / 10 : ℚ) * ((ExponentialBackoff.preJitterDelay ⟨100, 10000, 2, 0⟩ 3 : Int) : ℚ)
      ≤ ((ExponentialBackoff.NextDelay ⟨100, 10000, 2, 0⟩ 3 (1 / 2)).1 : ℚ) ∧
    ((ExponentialBackoff.NextDelay ⟨100, 10000, 2, 0⟩ 3 (1 / 2)).1 : ℚ)
      ≤ (11 / 10 : ℚ) * ((ExponentialBackoff.preJitterDelay ⟨100, 10000, 2, 0⟩ 3 : Int) : ℚ) ∧
    ((ExponentialBackoff.NextDelay ⟨100, 10000, 2, 0⟩ 3 (1 / 2)).1 : ℚ)
      ≤ (11 / 10 : ℚ) * (((10000 : Int)) : ℚ) :=
  NextDelay_jitter_bounds ⟨100, 10000, 2, 0⟩ 3 (1 / 2) (by norm_num) (by norm_num)
    (by norm_num) (by norm_num) (by norm_num) (by norm_num)

/-! ## C9: digit formatting/parsing helper lemmas -/

theorem digitChar_isDigit (d : Nat) (h : d < 10) : isDigit (digitChar d) = true := by
  interval_cases d <;> decide

theorem digitVal_digitChar (d : Nat) (h : d < 10) : digitVal (digitChar d) = d := by
  interval_cases d <;> decide

theorem digitChar_ne_dot (d : Nat) (h : d < 10) : digitChar d ≠ '.' := by
  interval_cases d <;> decide

theorem valOf_nil (x : Nat) : valOf x [] = x := rfl

theorem valOf_cons (x : Nat) (c : Char) (t : List Char) :
    valOf x (c :: t) = valOf (x * 10 + digitVal c) t := rfl

theorem valOf_append (a b : List Char) (x : Nat) :
    valOf x (a ++ b) = valOf (valOf x a) b := by
  induction a generalizing x with
  | nil => rfl
  | cons c t ih => rw [List.cons_append, valOf_cons, valOf_cons, ih]

theorem valOf_acc_le (x : Nat) (ds : List Char) : x ≤ valOf x ds := by
  induction ds generalizing x with
  | nil => exact le_refl x
  | cons c t ih =>
      refine le_trans ?_ (ih (x * 10 + digitVal c))
      omega

theorem natChars_zero (fuel : Nat) : natChars fuel 0 = [] := by
  cases fuel <;> simp [natChars]

theorem natChars_spec (fuel : Nat) :
    ∀ v : Nat, v ≤ fuel →
      (∀ c ∈ natChars fuel v, isDigit c = true) ∧
      (0 < v → natChars fuel v ≠ [] ∧ valOf 0 (natChars fuel v) = v) := by
  induction fuel with
  | zero =>
      intro v hv
      refine ⟨?_, by omega⟩
      intro c hc
      simp [natChars] at hc
  | succ fuel ih =>
      intro v hv
      by_cases h0 : v = 0
      · subst h0
        refine ⟨?_, by omega⟩
        intro c hc
        simp [natChars] at hc
      · have hv10 : v / 10 ≤ fuel := by omega
        obtain ⟨iha, ihb⟩ := ih (v / 10) hv10
        rw [natChars, if_neg h0]
        refine ⟨?_, fun _ => ⟨by simp, ?_⟩⟩
        · intro c hc
          rcases List.mem_append.mp hc with h | h
          · exact iha c h
          · rw [List.mem_singleton.mp h]
            exact digitChar_isDigit _ (Nat.mod_lt _ (by norm_num))
        · rw [valOf_append]
          by_cases hq : v / 10 = 0
          · rw [hq, natChars_zero]
            simp [valOf_nil, valOf_cons, digitVal_digitChar _ (Nat.mod_lt v (by norm_num))]
            omega
          · rw [(ihb (Nat.pos_of_ne_zero hq)).2]
            simp [valOf_nil, valOf_cons, digitVal_digitChar _ (Nat.mod_lt v (by norm_num))]
            omega

theorem fmtInt_facts (v : Nat) :
    fmtInt v ≠ [] ∧ (∀ c ∈ fmtInt v, isDigit c = true) ∧ valOf 0 (fmtInt v) = v := by
  by_cases h : v = 0
  · subst h
    exact ⟨by decide, by decide, by decide⟩
  · have hs := natChars_spec v v le_rfl
    rw [fmtInt, if_neg h]
    exact ⟨(hs.2 (Nat.pos_of_ne_zero h)).1, hs.1, (hs.2 (Nat.pos_of_ne_zero h)).2⟩

theorem leadDigitOrDot_fmtInt (v : Nat) (rest : List Char) :
    leadDigitOrDot (fmtInt v ++ rest) := by
  obtain ⟨hne, hdig, -⟩ := fmtInt_facts v
  cases h : fmtInt v with
  | nil => exact absurd h hne
  | cons c t =>
      have : isDigit c = true := hdig c (by rw [h]; exact List.mem_cons_self c t)
      simp [leadDigitOrDot, this]

theorem leadingInt_digits (ds : List Char) :
    ∀ (rest : List Char) (x : Nat), (∀ c ∈ ds, isDigit c = true) → noLeadDigit rest →
      valOf x ds ≤ 2 ^ 63 →
      leadingInt (ds ++ rest) x = .ok (valOf x ds, rest) := by
  induction ds with
  | nil =>
      intro rest x hds hrest hb
      cases rest with
      | nil => rfl
      | cons c t =>
          have hc : isDigit c = false := hrest
          simp [leadingInt, hc, valOf_nil]
  | cons c ds ih =>
      intro rest x hds hrest hb
      have hc : isDigit c = true := hds c (List.mem_cons_self c ds)
      have hb' : valOf (x * 10 + digitVal c) ds ≤ 2 ^ 63 := by
        simpa [valOf_cons] using hb
      have hx1 : x * 10 + digitVal c ≤ 2 ^ 63 := le_trans (valOf_acc_le _ _) hb'
      have hx : ¬(x > 2 ^ 63 / 10) := by
        have h10 : x * 10 ≤ 2 ^ 63 := by omega
        have := (Nat.le_div_iff_mul_le (by norm_num : 0 < 10)).mpr h10
        omega
      have hx1' : ¬(x * 10 + digitVal c > 2 ^ 63) := by omega
      simp only [List.cons_append, leadingInt, hc, if_true, if_neg hx, if_neg hx1',
        List.append_eq]
      rw [ih rest (x * 10 + digitVal c) (fun d hd => hds d (List.mem_cons_of_mem c hd)) hrest hb']
      simp [valOf_cons]

theorem leadingFraction_digits (ds : List Char) :
    ∀ (rest : List Char) (x scale : Nat), (∀ c ∈ ds, isDigit c = true) → noLeadDigit rest →
      valOf x ds ≤ 2 ^ 63 - 1 →
      leadingFraction (ds ++ rest) x scale false
        = ⟨valOf x ds, scale * 10 ^ ds.length, rest⟩ := by
  induction ds with
  | nil =>
      intro rest x scale hds hrest hb
      cases rest with
      | nil => simp [leadingFraction, valOf_nil]
      | cons c t =>
          have hc : isDigit c = false := hrest
          simp [leadingFraction, hc, valOf_nil]
  | cons c ds ih =>
      intro rest x scale hds hrest hb
      have hc : isDigit c = true := hds c (List.mem_cons_self c ds)
      have hb' : valOf (x * 10 + digitVal c) ds ≤ 2 ^ 63 - 1 := by
        simpa [valOf_cons] using hb
      have hx1 : x * 10 + digitVal c ≤ 2 ^ 63 - 1 := le_trans (valOf_acc_le _ _) hb'
      have hx : ¬(x > (2 ^ 63 - 1) / 10) := by
        have h10 : x * 10 ≤ 2 ^ 63 - 1 := by omega
        have := (Nat.le_div_iff_mul_le (by norm_num : 0 < 10)).mpr h10
        omega
      have hx1' : ¬(x * 10 + digitVal c > 2 ^ 63) := by omega
      simp only [List.cons_append, leadingFraction, hc, if_true, if_neg hx, if_neg hx1',
        Bool.false_eq_true, if_false, List.append_eq]
      rw [ih rest (x * 10 + digitVal c) (scale * 10)
        (fun d hd => hds d (List.mem_cons_of_mem c hd)) hrest hb']
      simp [valOf_cons]
      ring

theorem fmtFracGo_succ (p v : Nat) (pr : Bool) :
    fmtFracGo (p + 1) v pr
      = ((fmtFracGo p (v / 10) (pr || decide (v % 10 ≠ 0))).1
          ++ (if (pr || decide (v % 10 ≠ 0)) = true then [digitChar (v % 10)] else []),
         (fmtFracGo p (v / 10) (pr || decide (v % 10 ≠ 0))).2.1,
         (fmtFracGo p (v / 10) (pr || decide (v % 10 ≠ 0))).2.2) := rfl

theorem mod_pow_succ_split (v p : Nat) :
    v % 10 ^ (p + 1) = v % 10 + 10 * (v / 10 % 10 ^ p) := by
  rw [show (10 : Nat) ^ (p + 1) = 10 * 10 ^ p from by ring, Nat.mod_mul]

theorem div_pow_succ_collapse (v p : Nat) :
    v / 10 / 10 ^ p = v / 10 ^ (p + 1) := by
  rw [Nat.div_div_eq_div_mul, show (10 : Nat) * 10 ^ p = 10 ^ (p + 1) from by ring]

/-- Once `print` is set, `fmtFrac`'s loop emits exactly the `p` least
significant digits of `v`, most significant first (with padding zeros). -/
theorem fmtFracGo_true (p : Nat) :
    ∀ v : Nat, ∃ ds, fmtFracGo p v true = (ds, true, v / 10 ^ p) ∧ ds.length = p ∧
      (∀ c ∈ ds, isDigit c = true) ∧ valOf 0 ds = v % 10 ^ p := by
  induction p with
  | zero =>
      intro v
      exact ⟨[], by simp [fmtFracGo], rfl, by simp, by simp [valOf_nil, Nat.mod_one]⟩
  | succ p ih =>
      intro v
      obtain ⟨ds, h1, h2, h3, h4⟩ := ih (v / 10)
      refine ⟨ds ++ [digitChar (v % 10)], ?_, by simp [h2], ?_, ?_⟩
      · rw [fmtFracGo_succ]
        simp only [Bool.true_or, h1, div_pow_succ_collapse]
        simp
      · intro c hc
        rcases List.mem_append.mp hc with h | h
        · exact h3 c h
        · rw [List.mem_singleton.mp h]
          exact digitChar_isDigit _ (Nat.mod_lt _ (by norm_num))
      · rw [valOf_append, h4, valOf_cons, valOf_nil,
          digitVal_digitChar _ (Nat.mod_lt _ (by norm_num)), mod_pow_succ_split]
        ring

/-- The `fmtFrac` loop started with `print = false`: nothing is emitted when
the `p`-digit fraction is zero; otherwise the emitted digits are the
fraction with its trailing zeros (`10^t` of them) stripped. -/
theorem fmtFracGo_false (p : Nat) :
    ∀ v : Nat,
      (v % 10 ^ p = 0 → fmtFracGo p v false = ([], false, v / 10 ^ p)) ∧
      (v % 10 ^ p ≠ 0 → ∃ ds t, fmtFracGo p v false = (ds, true, v / 10 ^ p) ∧
        t + ds.length = p ∧ (∀ c ∈ ds, isDigit c = true) ∧
        (10 ^ t ∣ v % 10 ^ p) ∧ valOf 0 ds = v % 10 ^ p / 10 ^ t ∧ ds ≠ []) := by
  induction p with
  | zero =>
      intro v
      constructor
      · intro _; simp [fmtFracGo]
      · intro h; exact absurd (Nat.mod_one v) h
  | succ p ih =>
      intro v
      obtain ⟨ih0, ih1⟩ := ih (v / 10)
      have hsplit := mod_pow_succ_split v p
      by_cases hd : v % 10 = 0
      · have heq : fmtFracGo (p + 1) v false
            = ((fmtFracGo p (v / 10) false).1,
               (fmtFracGo p (v / 10) false).2.1, (fmtFracGo p (v / 10) false).2.2) := by
          rw [fmtFracGo_succ]
          simp [hd]
        by_cases h0 : v / 10 % 10 ^ p = 0
        · constructor
          · intro _
            rw [heq, ih0 h0]
            simp [div_pow_succ_collapse]
          · intro h
            exact absurd (by omega) h
        · constructor
          · intro h
            exact absurd h (by omega)
          · intro _
            obtain ⟨ds, t, e1, e2, e3, e4, e5, e6⟩ := ih1 h0
            refine ⟨ds, t + 1, ?_, by omega, e3, ?_, ?_, e6⟩
            · rw [heq, e1]
              simp [div_pow_succ_collapse]
            · rw [hsplit, hd]
              simpa [pow_succ, Nat.zero_add, mul_comm] using mul_dvd_mul_left 10 e4
            · rw [e5, hsplit, hd, Nat.zero_add,
                show (10 : Nat) ^ (t + 1) = 10 * 10 ^ t from by ring,
                Nat.mul_div_mul_left _ _ (by norm_num)]
      · have heq : fmtFracGo (p + 1) v false
            = ((fmtFracGo p (v / 10) true).1 ++ [digitChar (v % 10)],
               (fmtFracGo p (v / 10) true).2.1, (fmtFracGo p (v / 10) true).2.2) := by
          rw [fmtFracGo_succ]
          simp [hd]
        obtain ⟨ds, h1, h2, h3, h4⟩ := fmtFracGo_true p (v / 10)
        constructor
        · intro h
          exact absurd h (by omega)
        · intro _
          refine ⟨ds ++ [digitChar (v % 10)], 0, ?_, by simp [h2], ?_, by simp, ?_, by simp⟩
          · rw [heq, h1]
            simp [div_pow_succ_collapse]
          · intro c hc
            rcases List.mem_append.mp hc with h | h
            · exact h3 c h
            · rw [List.mem_singleton.mp h]
              exact digitChar_isDigit _ (Nat.mod_lt _ (by norm_num))
          · rw [valOf_append, h4, valOf_cons, valOf_nil,
              digitVal_digitChar _ (Nat.mod_lt _ (by norm_num)), pow_zero, Nat.div_one,
              hsplit]
            ring

/-- `fmtFrac` characterised: empty output for a zero fraction, otherwise a
`'.'` followed by the fraction digits with trailing zeros stripped. -/
theorem fmtFrac_eq (v p : Nat) :
    (v % 10 ^ p = 0 → fmtFrac v p = ([], v / 10 ^ p)) ∧
    (v % 10 ^ p ≠ 0 → ∃ ds t, fmtFrac v p = ('.' :: ds, v / 10 ^ p) ∧
      t + ds.length = p ∧ (∀ c ∈ ds, isDigit c = true) ∧
      (10 ^ t ∣ v % 10 ^ p) ∧ valOf 0 ds = v % 10 ^ p / 10 ^ t ∧ 0 < valOf 0 ds) := by
  obtain ⟨h0, h1⟩ := fmtFracGo_false p v
  constructor
  · intro h
    rw [fmtFrac, h0 h]
    simp
  · intro h
    obtain ⟨ds, t, e1, e2, e3, e4, e5, e6⟩ := h1 h
    refine ⟨ds, t, ?_, e2, e3, e4, e5, ?_⟩
    · rw [fmtFrac, e1]
      simp
    · rw [e5]
      exact Nat.div_pos (Nat.le_of_dvd (Nat.pos_of_ne_zero h) e4) (by positivity)

theorem takeUnit_stops (uc : List Char) :
    ∀ rest : List Char, (∀ c ∈ uc, c ≠ '.' ∧ isDigit c = false) → leadDigitOrDot rest →
      takeUnit (uc ++ rest) = (uc, rest) := by
  induction uc with
  | nil =>
      intro rest h hr
      cases rest with
      | nil => rfl
      | cons c t =>
          rcases hr with h1 | h1
          · simp [takeUnit, h1]
          · simp [takeUnit, h1]
  | cons c t ih =>
      intro rest h hr
      obtain ⟨h1, h2⟩ := h c (List.mem_cons_self c t)
      simp [takeUnit, h1, h2, ih rest (fun d hd => h d (List.mem_cons_of_mem c hd)) hr]

theorem fracProbe_dot (s2 : List Char) :
    fracProbe ('.' :: s2)
      = ((leadingFraction s2 0 1 false).f, (leadingFraction s2 0 1 false).scale,
         (leadingFraction s2 0 1 false).rest,
         decide ((leadingFraction s2 0 1 false).rest.length ≠ s2.length)) := rfl

theorem fracProbe_not_dot (s1 : List Char) (h : ∀ s2, s1 ≠ '.' :: s2) :
    fracProbe s1 = (0, 1, s1, false) := by
  unfold fracProbe
  split
  · next s2 => exact absurd rfl (h s2)
  · rfl

theorem unitMap_pos (uc : List Char) (unit : Nat) (h : unitMap uc = some unit) :
    0 < unit := by
  unfold unitMap at h
  split_ifs at h <;>
    simp_all [Nanosecond, Microsecond, Millisecond, Second, Minute, Hour] <;> omega

/-- A successfully parsed `ParseDuration` term of the shape
`digits [.digits] unit`, as built by `durString`: the value is
`v·unit + f·unit/scale` and the rest of the input is returned intact. -/
theorem parseTerm_shape (v fval fscale unit : Nat) (fr uc rest : List Char)
    (hfr : (fr = [] ∧ fval = 0 ∧ fscale = 1) ∨
           (∃ fd, fr = '.' :: fd ∧ fd ≠ [] ∧ (∀ c ∈ fd, isDigit c = true) ∧
             valOf 0 fd = fval ∧ fscale = 10 ^ fd.length ∧ 0 < fval))
    (huc : unitMap uc = some unit)
    (hucne : uc ≠ [])
    (hucch : ∀ c ∈ uc, c ≠ '.' ∧ isDigit c = false)
    (hrest : leadDigitOrDot rest)
    (hfb : fval ≤ 2 ^ 63 - 1)
    (hv : v * unit ≤ 2 ^ 63)
    (hv2 : v * unit + fval * unit / fscale ≤ 2 ^ 63) :
    parseTerm (fmtInt v ++ fr ++ uc ++ rest)
      = .ok (v * unit + fval * unit / fscale, rest) := by
  obtain ⟨hfne, hfdig, hfval⟩ := fmtInt_facts v
  obtain ⟨c0, t0, hft⟩ := List.exists_cons_of_ne_nil hfne
  have hunit : 0 < unit := unitMap_pos uc unit huc
  have hvle : v ≤ 2 ^ 63 := le_trans (Nat.le_mul_of_pos_right v hunit) hv
  obtain ⟨u0, ut, hu⟩ := List.exists_cons_of_ne_nil hucne
  have hu0 : u0 ≠ '.' ∧ isDigit u0 = false :=
    hucch u0 (by rw [hu]; exact List.mem_cons_self u0 ut)
  have hgoal : fmtInt v ++ fr ++ uc ++ rest = fmtInt v ++ (fr ++ (uc ++ rest)) := by
    simp [List.append_assoc]
  have hnld : noLeadDigit (fr ++ (uc ++ rest)) := by
    rcases hfr with ⟨hfr0, -, -⟩ | ⟨fd, hfr1, -, -, -, -, -⟩
    · subst hfr0
      rw [List.nil_append, hu, List.cons_append]
      exact hu0.2
    · subst hfr1
      rw [List.cons_append]
      exact (by decide : isDigit '.' = false)
  have hlead : leadingInt (fmtInt v ++ (fr ++ (uc ++ rest))) 0
      = .ok (v, fr ++ (uc ++ rest)) := by
    have := leadingInt_digits (fmtInt v) (fr ++ (uc ++ rest)) 0 hfdig hnld
      (by rw [hfval]; exact hvle)
    rw [hfval] at this
    exact this
  have hs : fmtInt v ++ (fr ++ (uc ++ rest)) = c0 :: (t0 ++ (fr ++ (uc ++ rest))) := by
    rw [hft]
    simp
  have hc0 : isDigit c0 = true := hfdig c0 (by rw [hft]; exact List.mem_cons_self c0 t0)
  have htu : takeUnit (uc ++ rest) = (uc, rest) := takeUnit_stops uc rest hucch hrest
  have hvcheck : ¬(v > 2 ^ 63 / unit) := by
    have := (Nat.le_div_iff_mul_le hunit).mpr hv
    omega
  rw [hgoal, hs]
  simp only [parseTerm]
  rw [if_neg (by simp [hc0])]
  rw [← hs]
  simp only [hlead]
  rcases hfr with ⟨hfr0, hfv0, hfs1⟩ | ⟨fd, hfr1, hfdne, hfddig, hfdval, hfds, hfvpos⟩
  · subst hfr0 hfv0 hfs1
    have hnotdot : ∀ s2, ([] : List Char) ++ (uc ++ rest) ≠ '.' :: s2 := by
      intro s2 hcon
      rw [List.nil_append, hu, List.cons_append] at hcon
      injection hcon with h1 h2
      exact hu0.1 h1
    rw [fracProbe_not_dot _ hnotdot]
    simp only [List.nil_append]
    rw [if_neg (by
      have hfl := List.length_pos.mpr hfne
      simp only [List.length_append, decide_eq_true_eq, Bool.false_eq_true,
        not_false_iff, and_true]
      omega)]
    rw [htu]
    rw [if_neg hucne]
    simp only [huc]
    rw [if_neg hvcheck]
    rw [if_neg (by omega : ¬(0 > 0))]
    simp
  · subst hfr1
    have hdot : ('.' :: fd) ++ (uc ++ rest) = '.' :: (fd ++ (uc ++ rest)) := by simp
    have hnldu : noLeadDigit (uc ++ rest) := by
      rw [hu, List.cons_append]
      exact hu0.2
    have hlf : leadingFraction (fd ++ (uc ++ rest)) 0 1 false
        = ⟨fval, 1 * 10 ^ fd.length, uc ++ rest⟩ := by
      have := leadingFraction_digits fd (uc ++ rest) 0 1 hfddig hnldu
        (by rw [hfdval]; exact hfb)
      rw [hfdval] at this
      exact this
    rw [hdot, fracProbe_dot, hlf]
    simp only
    rw [if_neg (by
      have hfl := List.length_pos.mpr hfdne
      simp only [List.length_append, decide_eq_true_eq]
      omega)]
    rw [htu]
    rw [if_neg hucne]
    simp only [huc]
    rw [if_neg hvcheck]
    rw [if_pos hfvpos]
    rw [one_mul, ← hfds]
    rw [if_neg (by omega : ¬(v * unit + fval * unit / fscale > 2 ^ 63))]

/-- Peeling one term off the `ParseDuration` loop. -/
theorem parseLoop_step (fuel : Nat) (s rest : List Char) (v d : Nat)
    (hterm : parseTerm s = .ok (v, rest)) (hd : d + v ≤ 2 ^ 63) :
    parseLoop (fuel + 1) s d = parseLoop fuel rest (d + v) := by
  cases s with
  | nil => simp [parseTerm] at hterm
  | cons c t =>
      simp only [parseLoop, hterm]
      rw [if_neg (by omega)]

theorem parseLoop_nil (fuel : Nat) (d : Nat) : parseLoop fuel [] d = .ok d := by
  cases fuel <;> rfl

theorem parseLoop_one (s0 : List Char) (val fuel : Nat)
    (hterm : parseTerm s0 = .ok (val, [])) (hval : val ≤ 2 ^ 63) :
    parseLoop (fuel + 1) s0 0 = .ok val := by
  rw [parseLoop_step fuel s0 [] val 0 hterm (by omega), parseLoop_nil, Nat.zero_add]

theorem signProbe_minus (r : List Char) : signProbe ('-' :: r) = (true, r) := rfl

theorem signProbe_other (s : List Char) (h : ∀ r, s ≠ '-' :: r ∧ s ≠ '+' :: r) :
    signProbe s = (false, s) := by
  unfold signProbe
  split
  · next r => exact absurd rfl (h r).1
  · next r => exact absurd rfl (h r).2
  · rfl

theorem isDigit_not_sign (c : Char) (h : isDigit c = true) : c ≠ '-' ∧ c ≠ '+' := by
  constructor <;> rintro rfl <;> exact absurd h (by decide)

/-- A `ParseDuration` term of the shape `durString` emits for a number `v`
followed by the fraction characters `fmtFrac` produced from the low `p`
digits of `U`: its value is `v·unit + (U mod 10^p)·(unit/10^p)`, provided
`10^p` divides `unit` (true for every fraction `durString` emits). -/
theorem parseTerm_numfrac (v U p unit : Nat) (uc rest : List Char)
    (huc : unitMap uc = some unit)
    (hucne : uc ≠ [])
    (hucch : ∀ c ∈ uc, c ≠ '.' ∧ isDigit c = false)
    (hrest : leadDigitOrDot rest)
    (hdvd : 10 ^ p ∣ unit)
    (hw : U % 10 ^ p ≤ 2 ^ 63 - 1)
    (hbound : v * unit + (U % 10 ^ p) * (unit / 10 ^ p) ≤ 2 ^ 63) :
    parseTerm (fmtInt v ++ (fmtFrac U p).1 ++ uc ++ rest)
      = .ok (v * unit + (U % 10 ^ p) * (unit / 10 ^ p), rest) := by
  obtain ⟨m, hm⟩ := hdvd
  obtain ⟨hfz, hfnz⟩ := fmtFrac_eq U p
  by_cases hw0 : U % 10 ^ p = 0
  · have hfr : (fmtFrac U p).1 = [] := by rw [hfz hw0]
    rw [hfr]
    have := parseTerm_shape v 0 1 unit [] uc rest (Or.inl ⟨rfl, rfl, rfl⟩)
      huc hucne hucch hrest (by norm_num) (by omega)
      (by simpa using (by omega : v * unit ≤ 2 ^ 63))
    simpa [hw0] using this
  · obtain ⟨ds, t, e1, e2, e3, e4, e5, e6⟩ := hfnz hw0
    have hfr : (fmtFrac U p).1 = '.' :: ds := by rw [e1]
    rw [hfr]
    have htp : t ≤ p := by omega
    have hdsne : ds ≠ [] := by
      intro hcon
      rw [hcon, valOf_nil] at e6
      exact absurd e6 (by omega)
    have hweq : (U % 10 ^ p / 10 ^ t) * unit / 10 ^ ds.length
        = (U % 10 ^ p) * (unit / 10 ^ p) := by
      have hlen : ds.length = p - t := by omega
      have hm' : unit / 10 ^ p = m := by
        rw [hm, Nat.mul_div_cancel_left _ (by positivity)]
      have hsplitp : (10 : Nat) ^ p = 10 ^ (p - t) * 10 ^ t := by
        rw [← pow_add]
        congr 1
        omega
      set w := U % 10 ^ p with hwdef
      rw [hlen, hm', hm, hsplitp]
      rw [show w / 10 ^ t * (10 ^ (p - t) * 10 ^ t * m)
          = 10 ^ (p - t) * (w / 10 ^ t * 10 ^ t * m) from by ring]
      rw [Nat.mul_div_cancel_left _ (by positivity : (0:Nat) < 10 ^ (p - t))]
      rw [Nat.div_mul_cancel e4]
    have := parseTerm_shape v (U % 10 ^ p / 10 ^ t) (10 ^ ds.length) unit
      ('.' :: ds) uc rest
      (Or.inr ⟨ds, rfl, hdsne, e3, e5, rfl, by rw [← e5]; exact e6⟩)
      huc hucne hucch hrest
      (le_trans (Nat.div_le_self _ _) hw)
      (by omega)
      (by rw [hweq]; exact hbound)
    rw [hweq] at this
    exact this

theorem parseLoop_two (s0 rest1 : List Char) (v1 v2 fuel : Nat)
    (h1 : parseTerm s0 = .ok (v1, rest1))
    (h2 : parseTerm rest1 = .ok (v2, []))
    (hb : v1 + v2 ≤ 2 ^ 63) :
    parseLoop (fuel + 2) s0 0 = .ok (v1 + v2) := by
  rw [show fuel + 2 = (fuel + 1) + 1 from rfl,
    parseLoop_step (fuel + 1) s0 rest1 v1 0 h1 (by omega), Nat.zero_add,
    parseLoop_step fuel rest1 [] v2 v1 h2 hb, parseLoop_nil]

theorem parseLoop_three (s0 rest1 rest2 : List Char) (v1 v2 v3 fuel : Nat)
    (h1 : parseTerm s0 = .ok (v1, rest1))
    (h2 : parseTerm rest1 = .ok (v2, rest2))
    (h3 : parseTerm rest2 = .ok (v3, []))
    (hb : v1 + v2 + v3 ≤ 2 ^ 63) :
    parseLoop (fuel + 3) s0 0 = .ok (v1 + v2 + v3) := by
  rw [show fuel + 3 = ((fuel + 1) + 1) + 1 from rfl,
    parseLoop_step ((fuel + 1) + 1) s0 rest1 v1 0 h1 (by omega), Nat.zero_add,
    parseLoop_step (fuel + 1) rest1 rest2 v2 v1 h2 (by omega),
    parseLoop_step fuel rest2 [] v3 (v1 + v2) h3 hb, parseLoop_nil]

theorem fmtFracGo_val (p : Nat) :
    ∀ (v : Nat) (pr : Bool), (fmtFracGo p v pr).2.2 = v / 10 ^ p := by
  induction p with
  | zero => intro v pr; simp [fmtFracGo]
  | succ p ih =>
      intro v pr
      rw [fmtFracGo_succ]
      simp only
      rw [ih, div_pow_succ_collapse]

theorem fmtFrac_snd (v p : Nat) : (fmtFrac v p).2 = v / 10 ^ p := by
  rw [fmtFrac]
  simp only
  rw [fmtFracGo_val]

theorem fmtInt_head_cons (x : Nat) (r : List Char) :
    ∃ c0 tl, fmtInt x ++ r = c0 :: tl ∧ isDigit c0 = true := by
  obtain ⟨hne, hdig, -⟩ := fmtInt_facts x
  obtain ⟨c0, t0, hft⟩ := List.exists_cons_of_ne_nil hne
  exact ⟨c0, t0 ++ r, by rw [hft]; simp,
    hdig c0 (by rw [hft]; exact List.mem_cons_self c0 t0)⟩

theorem fmtInt_length_pos (x : Nat) : 0 < (fmtInt x).length :=
  List.length_pos.mpr (fmtInt_facts x).1

/-- The body `durString` emits for `u = |d|` parses back to `u`: it starts
with a digit, has at least two characters, and the `ParseDuration` term
loop run with fuel equal to its length yields exactly `u`. -/
theorem durStringBody_parse (u : Nat) (hu : u ≤ 2 ^ 63) :
    (∃ c0 tl, durStringBody u = c0 :: tl ∧ isDigit c0 = true) ∧
    2 ≤ (durStringBody u).length ∧
    parseLoop (durStringBody u).length (durStringBody u) 0 = .ok u := by
  by_cases hsec : u < Second
  · by_cases h0 : u = 0
    · subst h0
      have hb : durStringBody 0 = ['0', 's'] := by
        rw [durStringBody, if_pos (by norm_num [Second] : (0 : Nat) < Second), if_pos rfl]
      rw [hb]
      exact ⟨⟨'0', ['s'], rfl, by decide⟩, by decide, rfl⟩
    · by_cases hmicro : u < Microsecond
      · -- the `ns` form
        have hbody : durStringBody u = fmtInt u ++ ['n', 's'] := by
          rw [durStringBody, if_pos hsec, if_neg h0, if_pos hmicro]
        have hterm : parseTerm (fmtInt u ++ ['n', 's']) = .ok (u, []) := by
          have h := parseTerm_shape u 0 1 Nanosecond [] ['n', 's'] []
            (Or.inl ⟨rfl, rfl, rfl⟩) rfl (by decide) (by decide) trivial
            (Nat.zero_le _) (by simpa [Nanosecond] using hu)
            (by simpa [Nanosecond] using hu)
          simpa [Nanosecond] using h
        rw [hbody]
        have hl := fmtInt_length_pos u
        refine ⟨fmtInt_head_cons u _, ?_, ?_⟩
        · simp only [List.length_append, List.length_cons, List.length_nil]
          omega
        · obtain ⟨m, hm⟩ : ∃ m, (fmtInt u ++ ['n', 's']).length = m + 1 :=
            ⟨(fmtInt u ++ ['n', 's']).length - 1, by
              simp only [List.length_append, List.length_cons, List.length_nil]
              omega⟩
          rw [hm]
          exact parseLoop_one _ u m hterm hu
      · by_cases hmilli : u < Millisecond
        · -- the `µs` form
          have hbody : durStringBody u
              = fmtInt (u / 10 ^ 3) ++ ((fmtFrac u 3).1 ++ ['µ', 's']) := by
            rw [durStringBody, if_pos hsec, if_neg h0, if_neg hmicro, if_pos hmilli]
            simp only [fmtFrac_snd, List.append_assoc]
          have hval : u / 10 ^ 3 * Microsecond + u % 10 ^ 3 * (Microsecond / 10 ^ 3)
              = u := by
            norm_num [Microsecond]
            omega
          have hterm : parseTerm (fmtInt (u / 10 ^ 3) ++ ((fmtFrac u 3).1 ++ ['µ', 's']))
              = .ok (u, []) := by
            have h := parseTerm_numfrac (u / 10 ^ 3) u 3 Microsecond ['µ', 's'] []
              rfl (by decide) (by decide) trivial (by norm_num [Microsecond])
              (by rw [show (10 : Nat) ^ 3 = 1000 from by norm_num]; omega)
              (by rw [hval]; exact hu)
            rw [hval] at h
            simpa using h
          rw [hbody]
          have hl := fmtInt_length_pos (u / 10 ^ 3)
          refine ⟨fmtInt_head_cons _ _, ?_, ?_⟩
          · simp only [List.length_append, List.length_cons, List.length_nil]
            omega
          · obtain ⟨m, hm⟩ :
                ∃ m, (fmtInt (u / 10 ^ 3) ++ ((fmtFrac u 3).1 ++ ['µ', 's'])).length
                  = m + 1 :=
              ⟨(fmtInt (u / 10 ^ 3) ++ ((fmtFrac u 3).1 ++ ['µ', 's'])).length - 1, by
                simp only [List.length_append, List.length_cons, List.length_nil]
                omega⟩
            rw [hm]
            exact parseLoop_one _ u m hterm hu
        · -- the `ms` form
          have hbody : durStringBody u
              = fmtInt (u / 10 ^ 6) ++ ((fmtFrac u 6).1 ++ ['m', 's']) := by
            rw [durStringBody, if_pos hsec, if_neg h0, if_neg hmicro, if_neg hmilli]
            simp only [fmtFrac_snd, List.append_assoc]
          have hval : u / 10 ^ 6 * Millisecond + u % 10 ^ 6 * (Millisecond / 10 ^ 6)
              = u := by
            norm_num [Millisecond]
            omega
          have hterm : parseTerm (fmtInt (u / 10 ^ 6) ++ ((fmtFrac u 6).1 ++ ['m', 's']))
              = .ok (u, []) := by
            have h := parseTerm_numfrac (u / 10 ^ 6) u 6 Millisecond ['m', 's'] []
              rfl (by decide) (by decide) trivial (by norm_num [Millisecond])
              (by rw [show (10 : Nat) ^ 6 = 1000000 from by norm_num]; omega)
              (by rw [hval]; exact hu)
            rw [hval] at h
            simpa using h
          rw [hbody]
          have hl := fmtInt_length_pos (u / 10 ^ 6)
          refine ⟨fmtInt_head_cons _ _, ?_, ?_⟩
          · simp only [List.length_append, List.length_cons, List.length_nil]
            omega
          · obtain ⟨m, hm⟩ :
                ∃ m, (fmtInt (u / 10 ^ 6) ++ ((fmtFrac u 6).1 ++ ['m', 's'])).length
                  = m + 1 :=
              ⟨(fmtInt (u / 10 ^ 6) ++ ((fmtFrac u 6).1 ++ ['m', 's'])).length - 1, by
                simp only [List.length_append, List.length_cons, List.length_nil]
                omega⟩
            rw [hm]
            exact parseLoop_one _ u m hterm hu
  · -- the `[Hh][Mm]S[.F]s` form
    have hbody0 : durStringBody u
        = if u / 10 ^ 9 / 60 = 0 then
            fmtInt (u / 10 ^ 9 % 60) ++ ((fmtFrac u 9).1 ++ ['s'])
          else if u / 10 ^ 9 / 60 / 60 = 0 then
            fmtInt (u / 10 ^ 9 / 60 % 60)
              ++ ('m' :: (fmtInt (u / 10 ^ 9 % 60) ++ ((fmtFrac u 9).1 ++ ['s'])))
          else
            fmtInt (u / 10 ^ 9 / 60 / 60)
              ++ ('h' :: (fmtInt (u / 10 ^ 9 / 60 % 60)
                ++ ('m' :: (fmtInt (u / 10 ^ 9 % 60) ++ ((fmtFrac u 9).1 ++ ['s']))))) := by
      rw [durStringBody, if_neg hsec]
      simp only [fmtFrac_snd]
      simp [List.append_assoc]
    have hsterm : parseTerm (fmtInt (u / 10 ^ 9 % 60) ++ ((fmtFrac u 9).1 ++ ['s']))
        = .ok (u / 10 ^ 9 % 60 * Second + u % 10 ^ 9, []) := by
      have h := parseTerm_numfrac (u / 10 ^ 9 % 60) u 9 Second ['s'] []
        rfl (by decide) (by decide) trivial (by norm_num [Second])
        (by rw [show (10 : Nat) ^ 9 = 1000000000 from by norm_num]; omega)
        (by norm_num [Second]; omega)
      rw [show Second / 10 ^ 9 = 1 from by norm_num [Second], Nat.mul_one] at h
      simpa using h
    by_cases hm0 : u / 10 ^ 9 / 60 = 0
    · rw [hbody0, if_pos hm0]
      have hveq : u / 10 ^ 9 % 60 * Second + u % 10 ^ 9 = u := by
        norm_num [Second]
        omega
      rw [hveq] at hsterm
      have hl := fmtInt_length_pos (u / 10 ^ 9 % 60)
      refine ⟨fmtInt_head_cons _ _, ?_, ?_⟩
      · simp only [List.length_append, List.length_cons, List.length_nil]
        omega
      · obtain ⟨m, hm⟩ :
            ∃ m, (fmtInt (u / 10 ^ 9 % 60) ++ ((fmtFrac u 9).1 ++ ['s'])).length
              = m + 1 :=
          ⟨(fmtInt (u / 10 ^ 9 % 60) ++ ((fmtFrac u 9).1 ++ ['s'])).length - 1, by
            simp only [List.length_append, List.length_cons, List.length_nil]
            omega⟩
        rw [hm]
        exact parseLoop_one _ u m hsterm hu
    · have hmterm : parseTerm (fmtInt (u / 10 ^ 9 / 60 % 60)
            ++ ('m' :: (fmtInt (u / 10 ^ 9 % 60) ++ ((fmtFrac u 9).1 ++ ['s']))))
          = .ok (u / 10 ^ 9 / 60 % 60 * Minute,
              fmtInt (u / 10 ^ 9 % 60) ++ ((fmtFrac u 9).1 ++ ['s'])) := by
        have h := parseTerm_shape (u / 10 ^ 9 / 60 % 60) 0 1 Minute [] ['m']
          (fmtInt (u / 10 ^ 9 % 60) ++ ((fmtFrac u 9).1 ++ ['s']))
          (Or.inl ⟨rfl, rfl, rfl⟩) rfl (by decide) (by decide)
          (leadDigitOrDot_fmtInt _ _) (Nat.zero_le _)
          (by norm_num [Minute]; omega) (by norm_num [Minute]; omega)
        simpa using h
      by_cases hh0 : u / 10 ^ 9 / 60 / 60 = 0
      · rw [hbody0, if_neg hm0, if_pos hh0]
        have htot : u / 10 ^ 9 / 60 % 60 * Minute
            + (u / 10 ^ 9 % 60 * Second + u % 10 ^ 9) = u := by
          norm_num [Minute, Second]
          omega
        have hl1 := fmtInt_length_pos (u / 10 ^ 9 / 60 % 60)
        have hl2 := fmtInt_length_pos (u / 10 ^ 9 % 60)
        refine ⟨fmtInt_head_cons _ _, ?_, ?_⟩
        · simp only [List.length_append, List.length_cons, List.length_nil]
          omega
        · obtain ⟨m, hm⟩ :
              ∃ m, (fmtInt (u / 10 ^ 9 / 60 % 60)
                ++ ('m' :: (fmtInt (u / 10 ^ 9 % 60) ++ ((fmtFrac u 9).1 ++ ['s'])))).length
                = m + 2 :=
            ⟨(fmtInt (u / 10 ^ 9 / 60 % 60)
                ++ ('m' :: (fmtInt (u / 10 ^ 9 % 60)
                  ++ ((fmtFrac u 9).1 ++ ['s'])))).length - 2, by
              simp only [List.length_append, List.length_cons, List.length_nil]
              omega⟩
          rw [hm]
          have h2 := parseLoop_two _ _ _ _ m hmterm hsterm (by rw [htot]; exact hu)
          rw [htot] at h2
          exact h2
      · rw [hbody0, if_neg hm0, if_neg hh0]
        have hhterm : parseTerm (fmtInt (u / 10 ^ 9 / 60 / 60)
              ++ ('h' :: (fmtInt (u / 10 ^ 9 / 60 % 60)
                ++ ('m' :: (fmtInt (u / 10 ^ 9 % 60) ++ ((fmtFrac u 9).1 ++ ['s']))))))
            = .ok (u / 10 ^ 9 / 60 / 60 * Hour,
                fmtInt (u / 10 ^ 9 / 60 % 60)
                  ++ ('m' :: (fmtInt (u / 10 ^ 9 % 60) ++ ((fmtFrac u 9).1 ++ ['s'])))) := by
          have h := parseTerm_shape (u / 10 ^ 9 / 60 / 60) 0 1 Hour [] ['h']
            (fmtInt (u / 10 ^ 9 / 60 % 60)
              ++ ('m' :: (fmtInt (u / 10 ^ 9 % 60) ++ ((fmtFrac u 9).1 ++ ['s']))))
            (Or.inl ⟨rfl, rfl, rfl⟩) rfl (by decide) (by decide)
            (leadDigitOrDot_fmtInt _ _) (Nat.zero_le _)
            (by norm_num [Hour]; omega) (by norm_num [Hour]; omega)
          simpa using h
        have htot : u / 10 ^ 9 / 60 / 60 * Hour + u / 10 ^ 9 / 60 % 60 * Minute
            + (u / 10 ^ 9 % 60 * Second + u % 10 ^ 9) = u := by
          norm_num [Hour, Minute, Second]
          omega
        have hl1 := fmtInt_length_pos (u / 10 ^ 9 / 60 / 60)
        have hl2 := fmtInt_length_pos (u / 10 ^ 9 / 60 % 60)
        have hl3 := fmtInt_length_pos (u / 10 ^ 9 % 60)
        refine ⟨fmtInt_head_cons _ _, ?_, ?_⟩
        · simp only [List.length_append, List.length_cons, List.length_nil]
          omega
        · obtain ⟨m, hm⟩ :
              ∃ m, (fmtInt (u / 10 ^ 9 / 60 / 60)
                ++ ('h' :: (fmtInt (u / 10 ^ 9 / 60 % 60)
                  ++ ('m' :: (fmtInt (u / 10 ^ 9 % 60)
                    ++ ((fmtFrac u 9).1 ++ ['s'])))))).length = m + 3 :=
            ⟨(fmtInt (u / 10 ^ 9 / 60 / 60)
                ++ ('h' :: (fmtInt (u / 10 ^ 9 / 60 % 60)
                  ++ ('m' :: (fmtInt (u / 10 ^ 9 % 60)
                    ++ ((fmtFrac u 9).1 ++ ['s'])))))).length - 3, by
              simp only [List.length_append, List.length_cons, List.length_nil]
              omega⟩
          rw [hm]
          have h3 := parseLoop_three _ _ _ _ _ _ m hhterm hmterm hsterm
            (by rw [htot]; exact hu)
          rw [htot] at h3
          exact h3

theorem finishParse_ok (neg : Bool) (d : Nat) :
    finishParse neg (.ok d)
      = if neg then .ok (-(d : Int))
        else if d > 2 ^ 63 - 1 then .error () else .ok (d : Int) := rfl

theorem finishParse_err (neg : Bool) (e : Unit) :
    finishParse neg (.error e) = .error () := rfl

/-- `time.ParseDuration` inverts `time.Duration.String` on the whole
`int64` range. -/
theorem ParseDuration_durString (d : Int) (hlo : -(2 ^ 63) ≤ d) (hhi : d < 2 ^ 63) :
    ParseDuration (durString d) = .ok d := by
  have hu : d.natAbs ≤ 2 ^ 63 := by omega
  obtain ⟨⟨c0, tl, hcons, hdig⟩, hlen2, hloop⟩ := durStringBody_parse d.natAbs hu
  have hne0 : durStringBody d.natAbs ≠ ['0'] := by
    intro hcon
    rw [hcon] at hlen2
    simp at hlen2
  have hnnil : durStringBody d.natAbs ≠ [] := by
    intro hcon
    rw [hcon] at hlen2
    simp at hlen2
  by_cases hneg : d < 0
  · rw [durString, if_pos hneg]
    simp only [ParseDuration, signProbe_minus]
    rw [if_neg hne0, if_neg hnnil, hloop, finishParse_ok]
    simp only [if_true, Except.ok.injEq]
    omega
  · rw [durString, if_neg hneg]
    have hsp : signProbe (durStringBody d.natAbs) = (false, durStringBody d.natAbs) := by
      apply signProbe_other
      intro r
      constructor <;> intro hcon <;> rw [hcons] at hcon <;> injection hcon with hx hy
      · exact (isDigit_not_sign c0 hdig).1 hx
      · exact (isDigit_not_sign c0 hdig).2 hx
    simp only [ParseDuration, hsp]
    rw [if_neg hne0, if_neg hnnil, hloop, finishParse_ok]
    simp only [Bool.false_eq_true, if_false]
    split_ifs with hbig
    · exact absurd hbig (by omega)
    · simp only [Except.ok.injEq]
      omega

/-- The `ParseDuration` loop never lets the accumulator exceed `1<<63`. -/
theorem parseLoop_le (fuel : Nat) :
    ∀ (s : List Char) (d0 res : Nat), d0 ≤ 2 ^ 63 →
      parseLoop fuel s d0 = .ok res → res ≤ 2 ^ 63 := by
  induction fuel with
  | zero =>
      intro s d0 res h0 h
      cases s with
      | nil => simp [parseLoop] at h; omega
      | cons c t => simp [parseLoop] at h
  | succ fuel ih =>
      intro s d0 res h0 h
      cases s with
      | nil => simp [parseLoop] at h; omega
      | cons c t =>
          rw [parseLoop] at h
          cases hp : parseTerm (c :: t) with
          | error e => rw [hp] at h; simp at h
          | ok p =>
              obtain ⟨v, rest⟩ := p
              rw [hp] at h
              simp only at h
              by_cases hover : d0 + v > 2 ^ 63
              · rw [if_pos hover] at h
                simp at h
              · rw [if_neg hover] at h
                exact ih rest (d0 + v) res (by omega) h

/-- Every value `ParseDuration` returns is in the `int64` range. -/
theorem ParseDuration_range (s : List Char) (n : Int)
    (h : ParseDuration s = .ok n) : -(2 ^ 63) ≤ n ∧ n < 2 ^ 63 := by
  simp only [ParseDuration] at h
  by_cases h1 : (signProbe s).2 = ['0']
  · rw [if_pos h1] at h
    simp only [Except.ok.injEq] at h
    omega
  · rw [if_neg h1] at h
    by_cases h2 : (signProbe s).2 = []
    · rw [if_pos h2] at h
      simp at h
    · rw [if_neg h2] at h
      cases hp : parseLoop (signProbe s).2.length (signProbe s).2 0 with
      | error e => rw [hp, finishParse_err] at h; simp at h
      | ok dd =>
          rw [hp, finishParse_ok] at h
          have hdd : dd ≤ 2 ^ 63 := parseLoop_le _ _ 0 dd (by norm_num) hp
          by_cases hng : (signProbe s).1 = true
          · rw [if_pos hng] at h
            simp only [Except.ok.injEq] at h
            omega
          · rw [if_neg hng] at h
            by_cases hbig : dd > 2 ^ 63 - 1
            · rw [if_pos hbig] at h
              simp at h
            · rw [if_neg hbig] at h
              simp only [Except.ok.injEq] at h
              omega

/-- **C9** (confirmed).  A configuration duration field accepts both the
human-readable string form and the integer nanosecond form, both decoding
to the same value; serialization always emits the string form; and
serialize-then-parse round-trips every `int64` duration to a structurally
equal value. -/
theorem Duration_json_roundtrip (d n : Int) (s : List Char)
    (hlo : -(2 ^ 63) ≤ d) (hhi : d < 2 ^ 63)
    (hs : ParseDuration s = .ok n) :
    durUnmarshalJSON (durMarshalJSON d) = .ok d ∧
    (∃ t, durMarshalJSON d = .jstr t) ∧
    durUnmarshalJSON (.jstr s) = .ok n ∧
    durUnmarshalJSON (.jnum n) = .ok n := by
  obtain ⟨hn1, hn2⟩ := ParseDuration_range s n hs
  refine ⟨?_, ⟨durString d, rfl⟩, hs, ?_⟩
  · simp only [durMarshalJSON, durUnmarshalJSON]
    exact ParseDuration_durString d hlo hhi
  · simp only [durUnmarshalJSON]
    rw [if_pos ⟨hn1, hn2⟩]

/-- Witness for `Duration_json_roundtrip`: the value 1m30s round-trips
through its string form, and the string "30s" and the integer 30000000000
decode to the same duration. -/
theorem Duration_json_roundtrip_witness :
    durUnmarshalJSON (durMarshalJSON 90000000000) = .ok 90000000000 ∧
    (∃ t, durMarshalJSON 90000000000 = .jstr t) ∧
    durUnmarshalJSON (.jstr ['3', '0', 's']) = .ok 30000000000 ∧
    durUnmarshalJSON (.jnum 30000000000) = .ok 30000000000 :=
  Duration_json_roundtrip 90000000000 30000000000 ['3', '0', 's']
    (by norm_num) (by norm_num) rfl

end Uscf
